import Mathlib

set_option maxRecDepth 8000
set_option maxHeartbeats 1000000

/-!
# A shallow embedding of the SMC option-scan core (`src/smc_logic.py`)

This file transcribes the data model and the operations of `smc_logic.py`
into Lean and proves the frozen claims about them.

Conventions of the embedding:

* Python floats that carry market data (prices, strikes, indicator values)
  are modelled as exact rationals `ℚ`; the transcendental pricing layer
  (`bs_price`, `bs_greeks`, `implied_vol`, the liquidity score) is modelled
  over `ℝ`, with Python's `math.erf` as the mathematical error function.
  Decimal literals of the source (`0.6`, `1.5`, `1e-4`, …) denote the exact
  numbers they spell.
* A Python dict field that may be missing or `None` is an `Option`;
  Python truthiness of a number-or-None (`if not t`, `x or 0.0`) is
  modelled explicitly (`none` and `0` are falsy).
* Dates (`expiry`, "today") are day indices `Nat`; `datetime` plumbing
  reduces to the day arithmetic the source performs in `_yearfrac`.
* The market-data provider `kite` is a record of response data; a method
  that the source guards with `try/except` is an `Except String`, the
  caught exception carrying its message.
* The `/tmp` gzip instrument cache of `_load_instruments` is modelled on
  its cache-miss path (fresh provider data), and the module-level
  `_TOKEN_CACHE` as initially empty, matching a first scan.
* The human-readable rationale strings that interpolate formatted numbers
  (f-strings in `_apply_greeks_gates`) are abstracted into the inductive
  `GateNote` recording which branch produced them; constant strings are
  kept verbatim.
-/

namespace SMC

/-! ## Data model -/

/-- One NFO instrument row with the fields `_slim_rows_nfo` keeps
(`smc_logic.py` lines 74-92). -/
structure RawNFO where
  tradingsymbol : Option String
  name : Option String
  instrument_type : Option String
  strike : Option ℚ
  expiry : Option Nat
  lot_size : Option Nat
deriving DecidableEq

/-- One NSE instrument row with the fields `_slim_rows_nse` keeps
(lines 94-106). -/
structure RawNSE where
  tradingsymbol : Option String
  instrument_token : Option Nat
deriving DecidableEq

/-- A daily candle; the scan reads only `high`, `low`, `close`
(lines 368-369). -/
structure Candle where
  high : ℚ
  low : ℚ
  close : ℚ
deriving DecidableEq

/-- One level of the order-book depth (`{"price": ...}`). -/
structure DepthLevel where
  price : Option ℚ
deriving DecidableEq

/-- The `depth` field of a quote. -/
structure Depth where
  buy : List DepthLevel
  sell : List DepthLevel
deriving DecidableEq

/-- A broker quote with the fields `_score` and the scan loop read
(lines 180-187 and 422-424). -/
structure Quote where
  last_price : Option ℚ
  volume : Option ℚ
  depth : Option Depth
deriving DecidableEq

/-- The market-data provider: the four `kite` calls the scan makes.
`Except.error msg` stands for the call raising an exception with
message `msg`. -/
structure Kite where
  instrumentsNFO : Except String (List RawNFO)
  instrumentsNSE : Except String (List RawNSE)
  historical_data : Nat → Except String (List Candle)
  quote : List String → Except String (List (String × Quote))

/-- The module-level configuration constants (lines 8-43), all read from
the environment with the defaults recorded in `defaultConfig`. -/
structure Config where
  budget : ℚ
  ring_strikes : Nat
  tp_mult_long : ℚ
  sl_mult_long : ℚ
  tp_mult_short : ℚ
  sl_mult_short : ℚ
  risk_free : ℚ
  div_yield : ℚ
  iv_min_long : ℚ
  iv_max_long : ℚ
  iv_min_short : ℚ
  delta_min_call : ℚ
  delta_max_call : ℚ
  delta_min_put : ℚ
  delta_max_put : ℚ
  gamma_max : ℚ
  theta_max_pct : ℚ
  allow_if_no_greeks : Bool
  debug_scan : Bool
deriving DecidableEq

/-- The source's default configuration values. -/
def defaultConfig : Config :=
  { budget := 10000
    ring_strikes := 4
    tp_mult_long := 3/2
    sl_mult_long := 7/10
    tp_mult_short := 6/10
    sl_mult_short := 3/2
    risk_free := 7/100
    div_yield := 0
    iv_min_long := 12/100
    iv_max_long := 45/100
    iv_min_short := 28/100
    delta_min_call := 30/100
    delta_max_call := 65/100
    delta_min_put := 30/100
    delta_max_put := 65/100
    gamma_max := 2/100
    theta_max_pct := 2/100
    allow_if_no_greeks := false
    debug_scan := false }

/-- The NIFTY-50 universe (lines 46-52), `[:MAX_STOCKS]` with the default
`MAX_STOCKS = 50`. -/
def NIFTY50 : List String :=
  (["RELIANCE","HDFCBANK","ICICIBANK","INFY","TCS","ITC","SBIN","BHARTIARTL","AXISBANK",
    "KOTAKBANK","ASIANPAINT","ADANIENT","HCLTECH","MARUTI","BAJFINANCE","SUNPHARMA","TITAN",
    "ULTRACEMCO","NTPC","WIPRO","NESTLEIND","ONGC","M&M","POWERGRID","JSWSTEEL","TATASTEEL",
    "COALINDIA","HINDUNILVR","BAJAJFINSV","TECHM","GRASIM","HDFCLIFE","DIVISLAB","BRITANNIA",
    "DRREDDY","INDUSINDBK","TATAMOTORS","BAJAJ-AUTO","HEROMOTOCO","CIPLA","EICHERMOT","LTIM",
    "HINDALCO","BPCL","ADANIPORTS","SHRIRAMFIN","UPL","APOLLOHOSP","LT","BRITANNIA"]).take 50

/-! ## Python-dict helpers -/

/-- Python truthiness of an optional number: `None` and `0` are falsy. -/
def truthy (o : Option ℚ) : Bool :=
  match o with
  | none => false
  | some x => decide (x ≠ 0)

/-- `d.get(k)` on a dict modelled as an association list (first match). -/
def lookupA {β : Type} (l : List (String × β)) (k : String) : Option β :=
  match l with
  | [] => none
  | p :: t => if p.1 = k then some p.2 else lookupA t k

/-- `d[k] = v` on a dict modelled as an association list: remove any
earlier binding of `k` and append the new one. -/
def insertOv {β : Type} (l : List (String × β)) (k : String) (v : β) : List (String × β) :=
  (l.filter (fun p => p.1 != k)) ++ [(k, v)]

/-- Python `l[-n:]`. -/
def takeLast {α : Type} (l : List α) (n : Nat) : List α := l.drop (l.length - n)

/-! ## Utilities (`smc_logic.py` lines 62-187) -/

/-- `_slim_rows_nfo` (lines 74-92): keep NFO rows whose `name` is in the
allow list and whose type is CE/PE.  A raw row is modelled as already
carrying exactly the six fields the slimming keeps. -/
def _slim_rows_nfo (raw : List RawNFO) (allow_names : List String) : List RawNFO :=
  raw.filter (fun r =>
    (match r.name with
     | some nm => decide (nm ∈ allow_names)
     | none => false)
    && (r.instrument_type == some "CE" || r.instrument_type == some "PE"))

/-- The loop body of `_slim_rows_nse` (lines 94-106): collect rows whose
symbol is needed, stopping once as many rows as needed symbols were
collected. -/
def _slim_rows_nse_go (need : List String) : List RawNSE → List RawNSE → List RawNSE
  | [], out => out
  | r :: t, out =>
    match r.tradingsymbol with
    | some ts =>
      if ts ∈ need then
        let out2 := out ++ [r]
        if out2.length = need.length then out2 else _slim_rows_nse_go need t out2
      else _slim_rows_nse_go need t out
    | none => _slim_rows_nse_go need t out

/-- `_slim_rows_nse` (lines 94-106); `set(allow_syms)` is the dedup of the
allow list. -/
def _slim_rows_nse (raw : List RawNSE) (allow_syms : List String) : List RawNSE :=
  _slim_rows_nse_go allow_syms.dedup raw []

/-- The loop body of `_map_tokens` (lines 123-134): build the
symbol → token dict, stopping once it covers every wanted symbol. -/
def _map_tokens_go (wanted : List String) :
    List RawNSE → List (String × Option Nat) → List (String × Option Nat)
  | [], cache => cache
  | r :: t, cache =>
    match r.tradingsymbol with
    | some ts =>
      if ts ∈ wanted then
        let c2 := insertOv cache ts r.instrument_token
        if c2.length = wanted.length then c2 else _map_tokens_go wanted t c2
      else _map_tokens_go wanted t cache
    | none => _map_tokens_go wanted t cache

/-- `_map_tokens` (lines 123-134), on a first scan (`_TOKEN_CACHE` empty). -/
def _map_tokens (nse_rows : List RawNSE) (symbols : List String) : List (String × Option Nat) :=
  _map_tokens_go symbols.dedup nse_rows []

/-- `_ema` (lines 141-145): seeded with the first value, which the loop
then blends in again. -/
def _ema (vals : List ℚ) (p : ℚ) : Option ℚ :=
  match vals with
  | [] => none
  | v0 :: _ =>
    let k := 2 / (p + 1)
    some (vals.foldl (fun e v => v * k + e * (1 - k)) v0)

/-- `_rsi` (lines 147-156). -/
def _rsi (closes : List ℚ) (p : Nat) : Option ℚ :=
  if closes.length < p + 1 then none
  else
    let ds := (List.zipWith (fun a b => a - b) closes.tail closes).take p
    let gains := (ds.map (fun d => if 0 < d then d else 0)).sum
    let losses := (ds.map (fun d => if d < 0 then -d else 0)).sum
    if losses = 0 then some 100
    else
      let rs := (gains / (p : ℚ)) / (losses / (p : ℚ))
      some (100 - 100 / (1 + rs))

/-- `_pivots` (lines 158-161): `(pp, r1, s1)`. -/
def _pivots (h l c : ℚ) : ℚ × ℚ × ℚ :=
  let pp := (h + l + c) / 3
  (pp, 2 * pp - l, 2 * pp - h)

/-- `_nearest_expiry` (lines 163-168): first expiry on/after today in the
sorted set of expiries, else the latest one, else `None`. -/
def _nearest_expiry (rows : List RawNFO) (today : Nat) : Option Nat :=
  let exps := List.insertionSort (· ≤ ·) (rows.filterMap (fun r => r.expiry)).dedup
  match exps.find? (fun d => decide (today ≤ d)) with
  | some d => some d
  | none => exps.getLast?

/-- The index `min(range(len(strikes)), key=lambda k: abs(strikes[k]-atm))`
(line 172); Python's `min` keeps the first minimizer. -/
def argminAbs (strikes : List ℚ) (x : ℚ) : Nat :=
  (strikes.foldl
    (fun (st : Nat × Nat × Option ℚ) s =>
      match st.2.2 with
      | none => (st.2.1, st.2.1 + 1, some |s - x|)
      | some b =>
        if |s - x| < b then (st.2.1, st.2.1 + 1, some |s - x|)
        else (st.1, st.2.1 + 1, some b))
    (0, 0, none)).1

/-- `min(strikes, key=lambda s: abs(s - px))` (line 394); Python's `min`
keeps the first minimizer.  `0` for the empty list (unreachable: the call
site guards `if not strikes`). -/
def minByAbs (strikes : List ℚ) (x : ℚ) : ℚ :=
  match strikes with
  | [] => 0
  | s0 :: t => t.foldl (fun b s => if |s - x| < |b - x| then s else b) s0

/-- `_ring` (lines 170-174): the slice of the sorted strike list from
`max(0, i-steps)` to `min(len-1, i+steps)` around the ATM index `i`
(`set(...)` of a slice of a dedup-sorted list: the slice itself). -/
def _ring (strikes : List ℚ) (atm : ℚ) (steps : Nat) : List ℚ :=
  let i := if atm ∈ strikes then strikes.indexOf atm else argminAbs strikes atm
  let lo := i - steps
  let hi := min (strikes.length - 1) (i + steps)
  (strikes.drop lo).take (hi + 1 - lo)

/-- Python's banker's rounding `round(x)` on an exact rational. -/
def roundHalfEven (x : ℚ) : ℤ :=
  let f := Int.floor x
  let r := x - (f : ℚ)
  if r < 1/2 then f
  else if 1/2 < r then f + 1
  else if f % 2 = 0 then f else f + 1

/-- `_tick_round` (lines 176-178) with the default tick `0.05`; the outer
`round(..., 2)` is the identity on an exact multiple of `0.05`. -/
def _tick_round (x : Option ℚ) : Option ℚ :=
  x.map (fun v =>
    let n : ℤ := roundHalfEven (v / (1/20))
    let y : ℚ := (n : ℚ) * (1/20)
    ((roundHalfEven (y * 100) : ℚ) / 100))

/-! ## TA decision (`_trade_bias_from_ta`, lines 191-201) -/

/-- `_trade_bias_from_ta`: `(trade_type, rationale)`.  Python truthiness of
`ema5 and ema10 and ema5 > ema10` is made explicit. -/
def _trade_bias_from_ta (side : String) (ema5 ema10 : Option ℚ) (px r1 s1 : ℚ)
    (rsi : Option ℚ) : String × String :=
  let overbought := rsi.any (fun v => decide (70 ≤ v))
  let oversold := rsi.any (fun v => decide (v ≤ 30))
  let bull := truthy ema5 && truthy ema10 && decide (ema10.getD 0 < ema5.getD 0)
      && decide (r1 < px) && (rsi.isNone || rsi.any (fun v => decide (v < 70)))
  let bear := truthy ema5 && truthy ema10 && decide (ema5.getD 0 < ema10.getD 0)
      && decide (px < s1) && (rsi.isNone || rsi.any (fun v => decide (30 < v)))
  if side = "CE" then
    if bull && !overbought then ("LONG", "Bullish confirmation")
    else ("SHORT", "Bullish weak/exhausted")
  else
    if bear && !oversold then ("LONG", "Bearish confirmation")
    else ("SHORT", "Bearish weak/exhausted")

/-! ## Black-Scholes / Greeks (`smc_logic.py` lines 204-273)

`math.erf` is the mathematical error function, written here through its
integral definition. -/

open MeasureTheory in
/-- Python's `math.erf`. -/
noncomputable def erf (x : ℝ) : ℝ :=
  2 / Real.sqrt Real.pi * ∫ t in (0:ℝ)..x, Real.exp (-t ^ 2)

/-- `_phi` (line 216): the standard normal pdf, with the source's literal
approximation of π. -/
noncomputable def _phi (x : ℝ) : ℝ :=
  1 / Real.sqrt (2 * 3.141592653589793) * Real.exp (-(1/2) * x * x)

/-- `_Phi` (line 217): the standard normal cdf via `erf`. -/
noncomputable def _Phi (x : ℝ) : ℝ :=
  (1/2) * (1 + erf (x / Real.sqrt 2))

/-- The `d1` of `bs_price` and `bs_greeks` (lines 225 and 234). -/
noncomputable def bsD1 (S K T r q sigma : ℝ) : ℝ :=
  (Real.log (S / K) + (r - q + (1/2) * sigma * sigma) * T) / (sigma * Real.sqrt T)

/-- The `d2` of `bs_price` and `bs_greeks` (lines 226 and 235). -/
noncomputable def bsD2 (S K T r q sigma : ℝ) : ℝ :=
  bsD1 S K T r q sigma - sigma * Real.sqrt T

open Classical in
/-- `bs_price` (lines 223-229): `None` on a non-positive input, else the
Black-Scholes fair value; any side other than `"CE"` prices the put. -/
noncomputable def bs_price (side : String) (S K T r q sigma : ℝ) : Option ℝ :=
  if S ≤ 0 ∨ K ≤ 0 ∨ T ≤ 0 ∨ sigma ≤ 0 then none
  else
    let d1 := bsD1 S K T r q sigma
    let d2 := bsD2 S K T r q sigma
    let disc_r := Real.exp (-r * T)
    let disc_q := Real.exp (-q * T)
    if side = "CE" then some (disc_q * S * _Phi d1 - disc_r * K * _Phi d2)
    else some (disc_r * K * _Phi (-d2) - disc_q * S * _Phi (-d1))

/-- The Greeks record `bs_greeks` returns; a field is `none` when the
source returns `None` for it. -/
structure Greeks where
  delta : Option ℝ
  gamma : Option ℝ
  theta : Option ℝ
  vega : Option ℝ
  rho : Option ℝ

/-- The all-`None` Greeks dict. -/
def noGreeks : Greeks :=
  { delta := none, gamma := none, theta := none, vega := none, rho := none }

open Classical in
/-- `bs_greeks` (lines 231-251). -/
noncomputable def bs_greeks (side : String) (S K T r q : ℝ) (sigma : Option ℝ) : Greeks :=
  if S ≤ 0 ∨ K ≤ 0 ∨ T ≤ 0 ∨ sigma.isNone ∨ sigma.getD 0 ≤ 0 then noGreeks
  else
    let sg := sigma.getD 0
    let d1 := (Real.log (S / K) + (r - q + (1/2) * sg * sg) * T) / (sg * Real.sqrt T)
    let d2 := d1 - sg * Real.sqrt T
    let disc_r := Real.exp (-r * T)
    let disc_q := Real.exp (-q * T)
    let pdf := _phi d1
    let delta := if side = "CE" then disc_q * _Phi d1 else -disc_q * _Phi (-d1)
    let theta :=
      if side = "CE" then
        -(disc_q * S * pdf * sg) / (2 * Real.sqrt T) - r * disc_r * K * _Phi d2
          + q * disc_q * S * _Phi d1
      else
        -(disc_q * S * pdf * sg) / (2 * Real.sqrt T) + r * disc_r * K * _Phi (-d2)
          - q * disc_q * S * _Phi (-d1)
    let rho := if side = "CE" then K * T * disc_r * _Phi d2 else -K * T * disc_r * _Phi (-d2)
    let gamma := disc_q * pdf / (S * sg * Real.sqrt T)
    let vega := disc_q * S * pdf * Real.sqrt T
    { delta := some delta, gamma := some gamma, theta := some (theta / 365),
      vega := some (vega / 100), rho := some (rho / 100) }

open Classical in
/-- The bracket-expansion loop of `implied_vol` (lines 256-262): up to 10
retries; on a failed straddle check multiply the upper bound by 1.5 and
stop once it exceeds 10.  `none` when a bracket price is `None`
(which makes `implied_vol` return `None`). -/
noncomputable def ivExpand (f : ℝ → Option ℝ) (price : ℝ) : Nat → ℝ → ℝ → Option (ℝ × ℝ)
  | 0, lo, hi => some (lo, hi)
  | n + 1, lo, hi =>
    match f lo, f hi with
    | some plo, some phi =>
      if (plo - price) * (phi - price) ≤ 0 then some (lo, hi)
      else
        let hi2 := hi * 1.5
        if 10 < hi2 then some (lo, hi2) else ivExpand f price n lo hi2
    | _, _ => none

open Classical in
/-- The bisection loop of `implied_vol` (lines 267-273): return the
midpoint once the pricing error is below `tol`, else halve towards the
sign change; after the iteration budget return the midpoint of the final
bracket. -/
noncomputable def ivBisect (f : ℝ → Option ℝ) (price tol : ℝ) :
    Nat → ℝ → ℝ → ℝ → ℝ → Option ℝ
  | 0, a, b, _, _ => some ((a + b) / 2)
  | n + 1, a, b, fa, fb =>
    match f ((a + b) / 2) with
    | none => none
    | some pm =>
      let m := (a + b) / 2
      let fm := pm - price
      if |fm| < tol then some m
      else if fa * fm ≤ 0 then ivBisect f price tol n a m fa fm
      else ivBisect f price tol n m b fm fb

open Classical in
/-- `implied_vol` (lines 253-273).  The source's defaults are
`lo = 1e-4`, `hi = 5`, `tol = 1e-4`, `max_iter = 60`.  After the guard,
`f` is total on positive volatilities, so the `none` fallthroughs of the
final `match` are unreachable at every call the scan makes. -/
noncomputable def implied_vol (side : String) (S K T price r q lo hi tol : ℝ)
    (max_iter : Nat) : Option ℝ :=
  if price ≤ 0 ∨ S ≤ 0 ∨ K ≤ 0 ∨ T ≤ 0 then none
  else
    let f := fun sg => bs_price side S K T r q sg
    match ivExpand f price 10 lo hi with
    | none => none
    | some ab =>
      match f ab.1, f ab.2 with
      | some pa, some pb =>
        let fa := pa - price
        let fb := pb - price
        if 0 < fa * fb then none
        else ivBisect f price tol max_iter ab.1 ab.2 fa fb
      | _, _ => none

/-! ## Greek-aware gates (`_apply_greeks_gates`, lines 277-331) -/

/-- Which branch of `_apply_greeks_gates` produced the note string; the
f-string interpolations of numbers are abstracted away, the failing gates
are recorded as flags. -/
inductive GateNote
  | missingAllowed
  | missingBlocked
  | longOk
  | longFail (ivBad deltaBad gammaBad thetaBad : Bool)
  | shortOk
  | shortWeak (ivBad gammaBad : Bool)
deriving DecidableEq

open Classical in
/-- `_apply_greeks_gates`: `(final_trade_type, note, passed)`. -/
noncomputable def _apply_greeks_gates (cfg : Config) (side base_trade_type : String)
    (ltp : ℚ) (iv : Option ℝ) (greeks : Greeks) : String × GateNote × Bool :=
  if iv.isNone ∨ greeks.delta.isNone then
    if cfg.allow_if_no_greeks then (base_trade_type, GateNote.missingAllowed, true)
    else
      ((if base_trade_type = "LONG" then "SHORT" else base_trade_type),
        GateNote.missingBlocked, false)
  else
    let ivv := iv.getD 0
    let delta := greeks.delta.getD 0
    let gamma := greeks.gamma.getD 0
    let theta := greeks.theta.getD 0
    let theta_bleed_pct := |theta| / max (ltp : ℝ) (1/1000000000)
    if base_trade_type = "LONG" then
      let ivBad := decide (¬ ((cfg.iv_min_long : ℝ) ≤ ivv ∧ ivv ≤ (cfg.iv_max_long : ℝ)))
      let deltaBad :=
        if side = "CE" then
          decide (¬ ((cfg.delta_min_call : ℝ) ≤ delta ∧ delta ≤ (cfg.delta_max_call : ℝ)))
        else
          decide (¬ ((cfg.delta_min_put : ℝ) ≤ |delta| ∧ |delta| ≤ (cfg.delta_max_put : ℝ)))
      let gammaBad := decide ((cfg.gamma_max : ℝ) < gamma)
      let thetaBad := decide ((cfg.theta_max_pct : ℝ) < theta_bleed_pct)
      if !(ivBad || deltaBad || gammaBad || thetaBad) then ("LONG", GateNote.longOk, true)
      else ("SHORT", GateNote.longFail ivBad deltaBad gammaBad thetaBad, false)
    else
      let ivBad := decide (ivv < (cfg.iv_min_short : ℝ))
      let gammaBad := decide ((cfg.gamma_max : ℝ) < gamma)
      if !(ivBad || gammaBad) then ("SHORT", GateNote.shortOk, true)
      else ("SHORT", GateNote.shortWeak ivBad gammaBad, false)

/-! ## The scan pipeline (`run_smc_scan`, lines 334-488) -/

/-- One candidate tuple `(sym, meta, side, base_type, rationale, nm)`
(line 404). -/
structure Candidate where
  sym : String
  meta : RawNFO
  side : String
  base_type : String
  rationale : String
  nm : String
deriving DecidableEq

/-- The per-symbol TA snapshot `ta[sym]` (line 374); `px` doubles as
`last_px[sym]`. -/
structure TAData where
  ema5 : Option ℚ
  ema10 : Option ℚ
  rsi : Option ℚ
  pp : ℚ
  r1 : ℚ
  s1 : ℚ
  px : ℚ
deriving DecidableEq

/-- One scored pick (the dict appended at lines 456-481).  `ta_note` and
`gate_note` stand for the two halves of the `reason` string. -/
structure Pick where
  symbol : String
  tradingsymbol : Option String
  name : String
  otype : String
  trade_type : String
  strike : Option ℚ
  expiry : Option Nat
  ltp : ℚ
  lot_size : ℤ
  score : ℝ
  suggested_lots : ℤ
  ta_note : String
  gate_note : GateNote
  tp : Option ℚ
  sl : Option ℚ
  entry_action : String
  exit_action : String
  iv : Option ℝ
  delta : Option ℝ
  gamma : Option ℝ
  theta_per_day : Option ℝ
  vega_per_volpt : Option ℝ
  rho_per_ratept : Option ℝ

/-- The scan's diagnostic counters; `none` = never written.  `expiry`
is written as `none`-or-a-date (`str(exp) if exp else None`). -/
structure Diag where
  nfo_filtered : Option Nat
  expiry : Option (Option Nat)
  candidates : Option Nat
  ta_count : Option Nat
deriving DecidableEq

/-- All diagnostics unset. -/
def emptyDiag : Diag :=
  { nfo_filtered := none, expiry := none, candidates := none, ta_count := none }

/-- The scan result dict `out` (lines 336-337); `ts` is the scan-time
stamp, carried as the day index. -/
structure ScanOut where
  status : String
  ts : Nat
  budget : ℚ
  picks : List Pick
  errors : List String
  diag : Diag

/-- The first value of `_score` (lines 180-187). -/
noncomputable def _score (cfg : Config) (q : Option Quote) (lot : ℤ) (ltp : ℚ)
    (trade_type : String) : ℝ :=
  let vol : ℚ := (q.bind (fun x => x.volume)).getD 0
  let liq : ℝ := Real.log (1 + (vol : ℝ))
  let d : Option Depth := q.bind (fun x => x.depth)
  let bb : Option ℚ :=
    match (d.map (fun x => x.buy)).getD [] with
    | [] => none
    | lv :: _ => lv.price
  let ba : Option ℚ :=
    match (d.map (fun x => x.sell)).getD [] with
    | [] => none
    | lv :: _ => lv.price
  let spr : ℚ :=
    if truthy bb && truthy ba && truthy (some ltp) then (ba.getD 0 - bb.getD 0) / ltp
    else 8/100
  let aff : ℚ :=
    if trade_type = "LONG" && truthy (some ltp) && decide (ltp * (lot : ℚ) ≤ cfg.budget)
    then 1 else 0
  (6/10 : ℝ) * liq - (3/10) * (spr : ℝ) + (1/10) * (aff : ℝ)

/-- `_yearfrac` as the scan computes it (lines 219-221 and 431-434):
`max(1/365, days/365)` with `days = max(0, expiry - today)`. -/
def _yearfrac (today expd : Nat) : ℚ :=
  max (1/365) (((expd - today : Nat) : ℚ) / 365)

/-- The per-stock TA loop (lines 356-375): skip a symbol with no truthy
token, and skip it when the provider raises, returns no data, or returns
fewer than 15 bars. -/
def taOf (kite : Kite) (tokens : List (String × Option Nat)) : List (String × TAData) :=
  NIFTY50.foldl
    (fun ta sym =>
      match lookupA tokens sym with
      | some (some t) =>
        if t = 0 then ta
        else
          let hist :=
            match kite.historical_data t with
            | Except.ok h => h
            | Except.error _ => []
          if hist.length < 15 then ta
          else
            let closes := hist.map (fun c => c.close)
            let highs := hist.map (fun c => c.high)
            let lows := hist.map (fun c => c.low)
            let e5 := _ema (takeLast closes 10) 5
            let e10 := _ema (takeLast closes 10) 10
            let r := _rsi (takeLast closes 15) 14
            let pv := _pivots (highs.getD (highs.length - 2) 0) (lows.getD (lows.length - 2) 0)
                (closes.getD (closes.length - 2) 0)
            let px := closes.getD (closes.length - 1) 0
            insertOv ta sym
              { ema5 := e5, ema10 := e10, rsi := r, pp := pv.1, r1 := pv.2.1, s1 := pv.2.2,
                px := px }
      | _ => ta)
    []

/-- The bucketing `by_name.setdefault(nm, []).append(r)` (lines 381-386),
keeping dict insertion order. -/
def appendAt (acc : List (String × List RawNFO)) (nm : String) (r : RawNFO) :
    List (String × List RawNFO) :=
  match acc with
  | [] => [(nm, [r])]
  | p :: t => if p.1 = nm then (p.1, p.2 ++ [r]) :: t else p :: appendAt t nm r

/-- Lines 381-386: bucket the selected-expiry rows by underlying name,
keeping only names with a TA entry. -/
def bucketByName (base : List RawNFO) (ta : List (String × TAData)) :
    List (String × List RawNFO) :=
  base.foldl
    (fun acc r =>
      match r.name with
      | some nm => if (lookupA ta nm).isSome then appendAt acc nm r else acc
      | none => acc)
    []

/-- The candidate-building loop (lines 388-404). -/
def candidatesFrom (cfg : Config) (base : List RawNFO) (ta : List (String × TAData)) :
    List Candidate :=
  (bucketByName base ta).foldl
    (fun acc p =>
      let nm := p.1
      let rows := p.2
      let strikes := List.insertionSort (· ≤ ·) (rows.filterMap (fun r => r.strike)).dedup
      if strikes = [] then acc
      else
        let pxO : Option ℚ := (lookupA ta nm).map (fun t => t.px)
        let atm := if truthy pxO then minByAbs strikes (pxO.getD 0)
                   else strikes.getD (strikes.length / 2) 0
        let rng := _ring strikes atm cfg.ring_strikes
        acc ++ rows.foldl
          (fun acc2 r =>
            match r.strike with
            | some s =>
              if s ∈ rng then
                let side := r.instrument_type.getD ""
                match lookupA ta nm with
                | some t =>
                  let bt := _trade_bias_from_ta side t.ema5 t.ema10 t.px t.r1 t.s1 t.rsi
                  acc2 ++ [{ sym := "NFO:" ++ r.tradingsymbol.getD "", meta := r, side := side,
                             base_type := bt.1, rationale := bt.2, nm := nm }]
                | none => acc2
              else acc2
            | none => acc2)
          [])
    []

/-- Helper for `batches60`: `k` is the remaining capacity of the open
batch `cur` (held reversed). -/
def batches60_go {α : Type} (k : Nat) (cur : List α) : List α → List (List α)
  | [] => [cur.reverse]
  | x :: t =>
    match k with
    | 0 => cur.reverse :: batches60_go 59 [x] t
    | k2 + 1 => batches60_go k2 (x :: cur) t

/-- `candidates[i:i+60]` batching (line 413): successive slices of 60. -/
def batches60 {α : Type} : List α → List (List α)
  | [] => []
  | x :: t => batches60_go 59 [x] t

/-- The quote loop (lines 411-418): `(accumulated quote dict, error list)`. -/
def quotesFrom (kite : Kite) (cands : List Candidate) : List (String × Quote) × List String :=
  (batches60 cands).foldl
    (fun acc batch =>
      match kite.quote (batch.map (fun c => c.sym)) with
      | Except.ok m => (m.foldl (fun qs pr => insertOv qs pr.1 pr.2) acc.1, acc.2)
      | Except.error e => (acc.1, acc.2 ++ ["quote error: " ++ e]))
    ([], [])

open Classical in
/-- The body of the scoring loop (lines 422-481): one scored pick from one
candidate. -/
noncomputable def scoreEntry (cfg : Config) (today : Nat)
    (quotes : List (String × Quote)) (ta : List (String × TAData)) (c : Candidate) : Pick :=
  let q : Option Quote := lookupA quotes c.sym
  let ltp : ℚ := (q.bind (fun x => x.last_price)).getD 0
  let lot : ℤ :=
    match c.meta.lot_size with
    | some n => if n = 0 then 1 else (n : ℤ)
    | none => 1
  let sc := _score cfg q lot ltp c.base_type
  let S : ℚ := ((lookupA ta c.nm).map (fun t => t.px)).getD 0
  let K : ℚ := c.meta.strike.getD 0
  let T : ℚ :=
    match c.meta.expiry with
    | some d => _yearfrac today d
    | none => 1/365
  let iv : Option ℝ :=
    if 0 < S ∧ 0 < K ∧ 0 < T ∧ 0 < ltp then
      implied_vol c.side (S : ℝ) (K : ℝ) (T : ℝ) (ltp : ℝ) (cfg.risk_free : ℝ)
        (cfg.div_yield : ℝ) (1/10000) 5 (1/10000) 60
    else none
  let gks : Greeks :=
    if iv.isSome ∧ iv.getD 0 ≠ 0 then
      bs_greeks c.side (S : ℝ) (K : ℝ) (T : ℝ) (cfg.risk_free : ℝ) (cfg.div_yield : ℝ) iv
    else noGreeks
  let g := _apply_greeks_gates cfg c.side c.base_type ltp iv gks
  let final_type := g.1
  let lot_cost : ℚ := ltp * (lot : ℚ)
  let lots : ℤ :=
    if final_type = "LONG" ∧ 0 < lot_cost then Int.floor (cfg.budget / lot_cost) else 0
  let tp := if final_type = "LONG" then _tick_round (some (ltp * cfg.tp_mult_long))
            else _tick_round (some (ltp * cfg.tp_mult_short))
  let sl := if final_type = "LONG" then _tick_round (some (ltp * cfg.sl_mult_long))
            else _tick_round (some (ltp * cfg.sl_mult_short))
  { symbol := c.sym
    tradingsymbol := c.meta.tradingsymbol
    name := c.nm
    otype := c.side
    trade_type := final_type
    strike := c.meta.strike
    expiry := c.meta.expiry
    ltp := ltp
    lot_size := lot
    score := sc
    suggested_lots := lots
    ta_note := c.rationale
    gate_note := g.2.1
    tp := tp
    sl := sl
    entry_action := if final_type = "LONG" then "BUY" else "SELL"
    exit_action := if final_type = "LONG" then "SELL" else "BUY"
    iv := if iv.isSome ∧ iv.getD 0 ≠ 0 then iv else none
    delta := gks.delta
    gamma := gks.gamma
    theta_per_day := gks.theta
    vega_per_volpt := gks.vega
    rho_per_ratept := gks.rho }

open Classical in
/-- `run_smc_scan` (lines 335-488), with the provider snapshot `kite` and
the scan date `today` as explicit inputs.  Every path returns a `ScanOut`;
the outer `try/except` surfaces a provider exception as status
`"error"` with the exception text in `errors`. -/
noncomputable def run_smc_scan (cfg : Config) (kite : Kite) (today : Nat) : ScanOut :=
  let out0 : ScanOut :=
    { status := "ok", ts := today, budget := cfg.budget, picks := [], errors := [],
      diag := emptyDiag }
  match kite.instrumentsNFO with
  | Except.error e => { out0 with status := "error", errors := [e] }
  | Except.ok rawN =>
    match kite.instrumentsNSE with
    | Except.error e => { out0 with status := "error", errors := [e] }
    | Except.ok rawS =>
      let nfo := _slim_rows_nfo rawN NIFTY50
      let nse := _slim_rows_nse rawS NIFTY50
      let d1 := { emptyDiag with nfo_filtered := some nfo.length }
      if nfo = [] then
        { out0 with status := "error", errors := ["No NFO rows for NIFTY50"], diag := d1 }
      else
        let exF := _nearest_expiry nfo today
        let d2 := { d1 with expiry := some exF }
        match exF with
        | none => { out0 with status := "error", errors := ["No upcoming expiry"], diag := d2 }
        | some e =>
          let base := nfo.filter (fun r => r.expiry == some e)
          let tokens := _map_tokens nse NIFTY50
          let ta := taOf kite tokens
          let d3 := if cfg.debug_scan then { d2 with ta_count := some ta.length } else d2
          let cands := candidatesFrom cfg base ta
          let d4 := { d3 with candidates := some cands.length }
          if cands = [] then
            { out0 with errors := ["No option candidates after ring filter"], diag := d4 }
          else
            let qres := quotesFrom kite cands
            let scored := cands.map (scoreEntry cfg today qres.1 ta)
            let sorted := List.insertionSort (fun a b => b.score ≤ a.score) scored
            { out0 with picks := sorted.take 50, errors := qres.2, diag := d4 }

/-- The candidate list the scan works from, as a function of the raw
inputs (empty on the paths where the scan never builds one). -/
def candidatesOf (cfg : Config) (kite : Kite) (today : Nat) : List Candidate :=
  match kite.instrumentsNFO, kite.instrumentsNSE with
  | Except.ok rawN, Except.ok rawS =>
    let nfo := _slim_rows_nfo rawN NIFTY50
    match _nearest_expiry nfo today with
    | some e =>
      candidatesFrom cfg (nfo.filter (fun r => r.expiry == some e))
        (taOf kite (_map_tokens (_slim_rows_nse rawS NIFTY50) NIFTY50))
    | none => []
  | _, _ => []

/-- The TA dict the scan works from. -/
def taTableOf (kite : Kite) : List (String × TAData) :=
  match kite.instrumentsNSE with
  | Except.ok rawS => taOf kite (_map_tokens (_slim_rows_nse rawS NIFTY50) NIFTY50)
  | Except.error _ => []

/-- The accumulated quote dict of a scan. -/
def quotesOf (cfg : Config) (kite : Kite) (today : Nat) : List (String × Quote) :=
  (quotesFrom kite (candidatesOf cfg kite today)).1

/-! ## Facts about the error function -/

lemma gauss_continuous : Continuous fun t : ℝ => Real.exp (-t ^ 2) := by
  have h : Continuous fun t : ℝ => -t ^ 2 := by continuity
  exact Real.continuous_exp.comp h

lemma gauss_integrableOn (s : Set ℝ) :
    MeasureTheory.IntegrableOn (fun t : ℝ => Real.exp (-t ^ 2)) s := by
  have h := integrable_exp_neg_mul_sq (b := 1) one_pos
  simpa [neg_mul, one_mul] using h.integrableOn

lemma gauss_total :
    ∫ t in Set.Ioi (0:ℝ), Real.exp (-t ^ 2) = Real.sqrt Real.pi / 2 := by
  have h := integral_gaussian_Ioi 1
  simpa [neg_mul, one_mul] using h

lemma gauss_head_nonneg {x : ℝ} (hx : 0 ≤ x) :
    0 ≤ ∫ t in (0:ℝ)..x, Real.exp (-t ^ 2) :=
  intervalIntegral.integral_nonneg hx (fun t _ => (Real.exp_pos _).le)

lemma gauss_head_le {x : ℝ} (hx : 0 ≤ x) :
    ∫ t in (0:ℝ)..x, Real.exp (-t ^ 2) ≤ Real.sqrt Real.pi / 2 := by
  rw [intervalIntegral.integral_of_le hx, ← gauss_total]
  refine MeasureTheory.setIntegral_mono_set (gauss_integrableOn _) ?_ ?_
  · exact MeasureTheory.ae_of_all _ (fun t => (Real.exp_pos _).le)
  · exact (Set.Ioc_subset_Ioi_self).eventuallyLE

lemma sqrt_pi_pos : 0 < Real.sqrt Real.pi := Real.sqrt_pos.mpr Real.pi_pos

lemma erf_nonneg_of_nonneg {x : ℝ} (hx : 0 ≤ x) : 0 ≤ erf x :=
  mul_nonneg (by positivity) (gauss_head_nonneg hx)

lemma erf_le_one_of_nonneg {x : ℝ} (hx : 0 ≤ x) : erf x ≤ 1 := by
  unfold erf
  have h1 : 2 / Real.sqrt Real.pi * (Real.sqrt Real.pi / 2) = 1 := by
    field_simp
  calc 2 / Real.sqrt Real.pi * ∫ t in (0:ℝ)..x, Real.exp (-t ^ 2)
      ≤ 2 / Real.sqrt Real.pi * (Real.sqrt Real.pi / 2) := by
        exact mul_le_mul_of_nonneg_left (gauss_head_le hx) (by positivity)
    _ = 1 := h1

lemma erf_neg (x : ℝ) : erf (-x) = -erf x := by
  unfold erf
  have h1 : (∫ t in (0:ℝ)..x, Real.exp (-(-t) ^ 2)) = ∫ t in -x..(-(0:ℝ)), Real.exp (-t ^ 2) :=
    intervalIntegral.integral_comp_neg (fun t => Real.exp (-t ^ 2))
  have h2 : (∫ t in (0:ℝ)..(-x), Real.exp (-t ^ 2)) = -∫ t in (0:ℝ)..x, Real.exp (-t ^ 2) := by
    have h3 : (∫ t in (0:ℝ)..x, Real.exp (-(-t) ^ 2)) = ∫ t in (0:ℝ)..x, Real.exp (-t ^ 2) := by
      congr 1 with t
      ring_nf
    rw [h3] at h1
    simp only [neg_zero] at h1
    rw [intervalIntegral.integral_symm, ← h1]
  rw [h2]
  ring

lemma erf_le_one (x : ℝ) : erf x ≤ 1 := by
  rcases le_total 0 x with hx | hx
  · exact erf_le_one_of_nonneg hx
  · have h := erf_nonneg_of_nonneg (x := -x) (by linarith)
    rw [erf_neg] at h
    linarith

lemma neg_one_le_erf (x : ℝ) : -1 ≤ erf x := by
  rcases le_total 0 x with hx | hx
  · have h := erf_nonneg_of_nonneg hx
    linarith
  · have h := erf_le_one_of_nonneg (x := -x) (by linarith)
    rw [erf_neg] at h
    linarith

lemma gauss_split {y : ℝ} (hy : 0 < y) :
    ∫ t in Set.Ioi y, Real.exp (-t ^ 2)
      = Real.sqrt Real.pi / 2 - ∫ t in (0:ℝ)..y, Real.exp (-t ^ 2) := by
  have hsplit : (∫ t in Set.Ioi (0:ℝ), Real.exp (-t ^ 2))
      = (∫ t in Set.Ioc (0:ℝ) y, Real.exp (-t ^ 2)) + ∫ t in Set.Ioi y, Real.exp (-t ^ 2) := by
    rw [← MeasureTheory.setIntegral_union (Set.Ioc_disjoint_Ioi le_rfl) measurableSet_Ioi
      (gauss_integrableOn _) (gauss_integrableOn _), Set.Ioc_union_Ioi_eq_Ioi hy.le]
  rw [gauss_total] at hsplit
  rw [intervalIntegral.integral_of_le hy.le]
  linarith

lemma exp_linear_tail {y : ℝ} (hy : 0 < y) :
    ∫ t in Set.Ioi y, Real.exp (-y * t) = Real.exp (-y * y) / y := by
  have hderiv : ∀ t ∈ Set.Ici y,
      HasDerivAt (fun u : ℝ => -(Real.exp (-y * u) / y)) (Real.exp (-y * t)) t := by
    intro t _
    have h1 : HasDerivAt (fun u : ℝ => -y * u) (-y) t := by
      simpa using (hasDerivAt_id t).const_mul (-y)
    have h3 := (h1.exp.div_const y).neg
    convert h3 using 1
    field_simp
  have hint : MeasureTheory.IntegrableOn (fun t : ℝ => Real.exp (-y * t)) (Set.Ioi y) :=
    exp_neg_integrableOn_Ioi y hy
  have htend : Filter.Tendsto (fun u : ℝ => -(Real.exp (-y * u) / y)) Filter.atTop (nhds 0) := by
    have h1 : Filter.Tendsto (fun u : ℝ => y * u) Filter.atTop Filter.atTop :=
      Filter.Tendsto.const_mul_atTop hy Filter.tendsto_id
    have h2 : Filter.Tendsto (fun u : ℝ => Real.exp (-(y * u))) Filter.atTop (nhds 0) :=
      Real.tendsto_exp_neg_atTop_nhds_zero.comp h1
    have h4 : Filter.Tendsto (fun u : ℝ => Real.exp (-y * u)) Filter.atTop (nhds 0) := by
      simpa [neg_mul] using h2
    simpa using (h4.div_const y).neg
  have h := MeasureTheory.integral_Ioi_of_hasDerivAt_of_tendsto' hderiv hint htend
  rw [h]
  ring

lemma gauss_tail_le {y : ℝ} (hy : 2 ≤ y) :
    ∫ t in Set.Ioi y, Real.exp (-t ^ 2) ≤ Real.exp (-y * y) / y := by
  have h0y : (0:ℝ) < y := by linarith
  rw [← exp_linear_tail h0y]
  refine MeasureTheory.setIntegral_mono_on (gauss_integrableOn _)
    (exp_neg_integrableOn_Ioi y h0y) measurableSet_Ioi ?_
  intro t ht
  have hty : y < t := ht
  have h1 : y * t ≤ t ^ 2 := by nlinarith
  exact Real.exp_le_exp.mpr (by linarith)

/-- Gaussian upper-tail estimate in the form the pricing bounds need. -/
lemma one_sub_erf_le {y : ℝ} (hy : 2 ≤ y) : 1 - erf y ≤ Real.exp (-y ^ 2) := by
  have h0y : (0:ℝ) < y := by linarith
  have hsq : 1 ≤ Real.sqrt Real.pi := by
    rw [show (1:ℝ) = Real.sqrt 1 by simp]
    exact Real.sqrt_le_sqrt (by nlinarith [Real.pi_gt_three])
  have htail := gauss_tail_le hy
  have hsplit := gauss_split h0y
  have herf : 1 - erf y = 2 / Real.sqrt Real.pi * ∫ t in Set.Ioi y, Real.exp (-t ^ 2) := by
    unfold erf
    rw [hsplit]
    field_simp
    ring
  rw [herf]
  have hpos : (0:ℝ) < 2 / Real.sqrt Real.pi := by positivity
  have h2 : 2 / Real.sqrt Real.pi * ∫ t in Set.Ioi y, Real.exp (-t ^ 2)
      ≤ 2 / Real.sqrt Real.pi * (Real.exp (-y * y) / y) :=
    mul_le_mul_of_nonneg_left htail hpos.le
  have h3 : 2 / Real.sqrt Real.pi * (Real.exp (-y * y) / y) ≤ Real.exp (-y ^ 2) := by
    have hE : Real.exp (-y * y) = Real.exp (-y ^ 2) := by ring_nf
    rw [hE, div_mul_div_comm, div_le_iff (by positivity)]
    have h4 : 2 ≤ Real.sqrt Real.pi * y := by nlinarith
    nlinarith [Real.exp_pos (-y ^ 2)]
  linarith

lemma erf_strict_mono {a b : ℝ} (hab : a < b) : erf a < erf b := by
  unfold erf
  have hsub : (∫ t in a..b, Real.exp (-t ^ 2))
      = (∫ t in (0:ℝ)..b, Real.exp (-t ^ 2)) - ∫ t in (0:ℝ)..a, Real.exp (-t ^ 2) := by
    rw [intervalIntegral.integral_interval_sub_left
      (gauss_continuous.intervalIntegrable 0 b) (gauss_continuous.intervalIntegrable 0 a)]
  have hpos : 0 < ∫ t in a..b, Real.exp (-t ^ 2) := by
    refine intervalIntegral.intervalIntegral_pos_of_pos_on
      (gauss_continuous.intervalIntegrable a b) (fun t _ => Real.exp_pos _) hab
  have h2 : (∫ t in (0:ℝ)..a, Real.exp (-t ^ 2)) < ∫ t in (0:ℝ)..b, Real.exp (-t ^ 2) := by
    rw [hsub] at hpos
    linarith
  have h3 : (0:ℝ) < 2 / Real.sqrt Real.pi := by positivity
  exact mul_lt_mul_of_pos_left h2 h3

/-! ## Facts about `_Phi` -/

lemma Phi_nonneg (x : ℝ) : 0 ≤ _Phi x := by
  unfold _Phi
  nlinarith [neg_one_le_erf (x / Real.sqrt 2)]

lemma Phi_le_one (x : ℝ) : _Phi x ≤ 1 := by
  unfold _Phi
  nlinarith [erf_le_one (x / Real.sqrt 2)]

lemma Phi_add_neg (x : ℝ) : _Phi x + _Phi (-x) = 1 := by
  unfold _Phi
  rw [neg_div, erf_neg]
  ring

lemma Phi_strict_mono {a b : ℝ} (hab : a < b) : _Phi a < _Phi b := by
  unfold _Phi
  have h : erf (a / Real.sqrt 2) < erf (b / Real.sqrt 2) := by
    refine erf_strict_mono ?_
    have h2 : (0:ℝ) < Real.sqrt 2 := by positivity
    exact (div_lt_div_right h2).mpr hab
  linarith

/-! ## Facts about `bs_price` -/

lemma bs_price_guard {side : String} {S K T r q sigma : ℝ}
    (h : S ≤ 0 ∨ K ≤ 0 ∨ T ≤ 0 ∨ sigma ≤ 0) :
    bs_price side S K T r q sigma = none := by
  unfold bs_price
  rw [if_pos h]

lemma bs_price_CE_eq {S K T r q sigma : ℝ}
    (hS : 0 < S) (hK : 0 < K) (hT : 0 < T) (hsg : 0 < sigma) :
    bs_price "CE" S K T r q sigma
      = some (Real.exp (-q * T) * S * _Phi (bsD1 S K T r q sigma)
          - Real.exp (-r * T) * K * _Phi (bsD2 S K T r q sigma)) := by
  unfold bs_price
  rw [if_neg (by push_neg; exact ⟨hS, hK, hT, hsg⟩)]
  simp

lemma bs_price_PE_eq {side : String} {S K T r q sigma : ℝ} (hside : side ≠ "CE")
    (hS : 0 < S) (hK : 0 < K) (hT : 0 < T) (hsg : 0 < sigma) :
    bs_price side S K T r q sigma
      = some (Real.exp (-r * T) * K * _Phi (-(bsD2 S K T r q sigma))
          - Real.exp (-q * T) * S * _Phi (-(bsD1 S K T r q sigma))) := by
  unfold bs_price
  rw [if_neg (by push_neg; exact ⟨hS, hK, hT, hsg⟩)]
  simp [hside]

/-- A call value never exceeds the carry-discounted spot: the upper bound
used to produce brackets that provably fail to straddle. -/
lemma bs_price_CE_le {S K T r q sigma v : ℝ}
    (hK : 0 < K) (hv : bs_price "CE" S K T r q sigma = some v) :
    v ≤ Real.exp (-q * T) * S := by
  rcases le_or_lt S 0 with hS | hS
  · rw [bs_price_guard (Or.inl hS)] at hv
    cases hv
  rcases le_or_lt T 0 with hT | hT
  · rw [bs_price_guard (Or.inr (Or.inr (Or.inl hT)))] at hv
    cases hv
  rcases le_or_lt sigma 0 with hsg | hsg
  · rw [bs_price_guard (Or.inr (Or.inr (Or.inr hsg)))] at hv
    cases hv
  rw [bs_price_CE_eq hS hK hT hsg] at hv
  have hv2 := Option.some_injective _ hv
  have h1 := Phi_le_one (bsD1 S K T r q sigma)
  have h2 := Phi_nonneg (bsD2 S K T r q sigma)
  have h3 : (0:ℝ) < Real.exp (-q * T) := Real.exp_pos _
  have h4 : (0:ℝ) < Real.exp (-r * T) := Real.exp_pos _
  nlinarith [mul_nonneg (mul_nonneg h4.le hK.le) h2,
    mul_le_mul_of_nonneg_left h1 (mul_nonneg h3.le hS.le)]

/-- C10 (safety): `bs_price` returns a value exactly on the guarded
all-positive domain, and `None` otherwise. -/
theorem bs_price_isSome_iff (side : String) (S K T r q sigma : ℝ) :
    (bs_price side S K T r q sigma).isSome = true
      ↔ (0 < S ∧ 0 < K ∧ 0 < T ∧ 0 < sigma) := by
  constructor
  · intro h
    by_contra hneg
    have hg : S ≤ 0 ∨ K ≤ 0 ∨ T ≤ 0 ∨ sigma ≤ 0 := by
      push_neg at hneg
      by_contra hg2
      push_neg at hg2
      exact absurd (hneg hg2.1 hg2.2.1 hg2.2.2.1) (not_le.mpr hg2.2.2.2)
    rw [bs_price_guard hg] at h
    simp at h
  · rintro ⟨hS, hK, hT, hsg⟩
    by_cases hside : side = "CE"
    · rw [hside, bs_price_CE_eq hS hK hT hsg]
      rfl
    · rw [bs_price_PE_eq hside hS hK hT hsg]
      rfl

/-- C2 (put-call parity): on every valid input the call and the put price
exist and their difference is exactly `S·e^(−qT) − K·e^(−rT)`. -/
theorem bs_price_put_call_parity (S K T r q sigma : ℝ)
    (hS : 0 < S) (hK : 0 < K) (hT : 0 < T) (hsg : 0 < sigma) :
    ∃ c p, bs_price "CE" S K T r q sigma = some c
      ∧ bs_price "PE" S K T r q sigma = some p
      ∧ c - p = S * Real.exp (-q * T) - K * Real.exp (-r * T) := by
  refine ⟨_, _, bs_price_CE_eq hS hK hT hsg,
    bs_price_PE_eq (by decide) hS hK hT hsg, ?_⟩
  have h1 := Phi_add_neg (bsD1 S K T r q sigma)
  have h2 := Phi_add_neg (bsD2 S K T r q sigma)
  linear_combination Real.exp (-q * T) * S * h1 - Real.exp (-r * T) * K * h2

/-- Witness for C2 at `S = K = T = σ = 1`, `r = q = 0`. -/
theorem bs_price_put_call_parity_witness :
    ∃ c p, bs_price "CE" 1 1 1 0 0 1 = some c
      ∧ bs_price "PE" 1 1 1 0 0 1 = some p
      ∧ c - p = 1 * Real.exp (-0 * 1) - 1 * Real.exp (-0 * 1) :=
  bs_price_put_call_parity 1 1 1 0 0 1 (by norm_num) (by norm_num) (by norm_num) (by norm_num)

/-! ## Facts about the bracket expansion of `implied_vol` -/

lemma ivExpand_shape {f : ℝ → Option ℝ} {price : ℝ} :
    ∀ {n : Nat} {lo hi : ℝ} {pr : ℝ × ℝ}, ivExpand f price n lo hi = some pr →
      pr.1 = lo ∧ ∃ k ≤ n, pr.2 = hi * (3/2) ^ k := by
  intro n
  induction n with
  | zero =>
    intro lo hi pr h
    simp only [ivExpand] at h
    cases h
    exact ⟨rfl, 0, by norm_num⟩
  | succ n ih =>
    intro lo hi pr h
    simp only [ivExpand] at h
    cases hlo : f lo with
    | none => simp [hlo] at h
    | some plo =>
      cases hhi : f hi with
      | none => simp [hlo, hhi] at h
      | some phi =>
        simp only [hlo, hhi] at h
        by_cases hc : (plo - price) * (phi - price) ≤ 0
        · rw [if_pos hc] at h
          cases h
          exact ⟨rfl, 0, by norm_num⟩
        · rw [if_neg hc] at h
          by_cases h10 : (10:ℝ) < hi * 1.5
          · rw [if_pos h10] at h
            cases h
            refine ⟨rfl, 1, by omega, by norm_num⟩
          · rw [if_neg h10] at h
            obtain ⟨h1, k, hk, h2⟩ := ih h
            refine ⟨h1, k + 1, by omega, ?_⟩
            rw [h2, pow_succ]
            ring_nf

lemma ivExpand_checked {f : ℝ → Option ℝ} {price : ℝ} {n : Nat} {lo hi : ℝ} {pr : ℝ × ℝ}
    (h : ivExpand f price (n + 1) lo hi = some pr) :
    (∃ plo, f lo = some plo) ∧ ∃ phi, f hi = some phi := by
  simp only [ivExpand] at h
  cases hlo : f lo with
  | none => simp [hlo] at h
  | some plo =>
    cases hhi : f hi with
    | none => simp [hlo, hhi] at h
    | some phi => exact ⟨⟨plo, rfl⟩, phi, rfl⟩

/-- C8 (amended): when the model price stays strictly below the observed
price at every volatility — so no expanded bracket can straddle it —
`implied_vol` returns `None` (an absent value, never `0`). -/
theorem implied_vol_unresolved_below (side : String) (S K T price r q lo hi tol : ℝ)
    (max_iter : Nat)
    (hguard : ¬(price ≤ 0 ∨ S ≤ 0 ∨ K ≤ 0 ∨ T ≤ 0))
    (hbelow : ∀ sg v, 0 < sg → bs_price side S K T r q sg = some v → v < price) :
    implied_vol side S K T price r q lo hi tol max_iter = none := by
  simp only [implied_vol]
  rw [if_neg hguard]
  cases hexp : ivExpand (fun sg => bs_price side S K T r q sg) price 10 lo hi with
  | none => rfl
  | some ab =>
    cases ha : bs_price side S K T r q ab.1 with
    | none => simp only [ha]
    | some pa =>
      cases hb : bs_price side S K T r q ab.2 with
      | none => simp only [ha, hb]
      | some pb =>
        have hσ1 : 0 < ab.1 :=
          ((bs_price_isSome_iff side S K T r q ab.1).mp (by rw [ha]; rfl)).2.2.2
        have hσ2 : 0 < ab.2 :=
          ((bs_price_isSome_iff side S K T r q ab.2).mp (by rw [hb]; rfl)).2.2.2
        have hpa := hbelow ab.1 pa hσ1 ha
        have hpb := hbelow ab.2 pb hσ2 hb
        have hprod : 0 < (pa - price) * (pb - price) :=
          mul_pos_of_neg_of_neg (by linarith) (by linarith)
        simp only [ha, hb]
        rw [if_pos hprod]

/-! ## The bisection loop: convergence characterisation -/

lemma ivBisect_spec {f : ℝ → Option ℝ} {price tol : ℝ} :
    ∀ {n : Nat} {a b fa fb pa pb v : ℝ},
      f a = some pa → f b = some pb → fa = pa - price → fb = pb - price →
      fa * fb ≤ 0 → a ≤ b →
      (∀ x, a ≤ x → x ≤ b → (f x).isSome = true) →
      ivBisect f price tol n a b fa fb = some v →
      (∃ pv, f v = some pv ∧ |pv - price| < tol) ∨
      (∃ a2 b2 pa2 pb2, a2 ≤ v ∧ v ≤ b2 ∧ b2 - a2 = (b - a) / 2 ^ n
        ∧ f a2 = some pa2 ∧ f b2 = some pb2
        ∧ (pa2 - price) * (pb2 - price) ≤ 0) := by
  intro n
  induction n with
  | zero =>
    intro a b fa fb pa pb v ha hb hfa hfb hstr hab htot hv
    simp only [ivBisect] at hv
    cases hv
    refine Or.inr ⟨a, b, pa, pb, by linarith, by linarith, by norm_num, ha, hb, ?_⟩
    rw [hfa, hfb] at hstr
    exact hstr
  | succ n ih =>
    intro a b fa fb pa pb v ha hb hfa hfb hstr hab htot hv
    simp only [ivBisect] at hv
    have hm1 : a ≤ (a + b) / 2 := by linarith
    have hm2 : (a + b) / 2 ≤ b := by linarith
    obtain ⟨pm, hpm⟩ := Option.isSome_iff_exists.mp (htot _ hm1 hm2)
    simp only [hpm] at hv
    by_cases htol : |pm - price| < tol
    · rw [if_pos htol] at hv
      cases hv
      exact Or.inl ⟨pm, hpm, htol⟩
    · rw [if_neg htol] at hv
      by_cases hsign : fa * (pm - price) ≤ 0
      · rw [if_pos hsign] at hv
        have hres := ih ha hpm hfa rfl hsign hm1
          (fun x hx1 hx2 => htot x hx1 (le_trans hx2 hm2)) hv
        rcases hres with hl | ⟨a2, b2, pa2, pb2, h1, h2, h3, h4, h5, h6⟩
        · exact Or.inl hl
        · refine Or.inr ⟨a2, b2, pa2, pb2, h1, h2, ?_, h4, h5, h6⟩
          rw [h3, pow_succ]
          have h2n : (2:ℝ) ^ n ≠ 0 := by positivity
          field_simp
          ring
      · rw [if_neg hsign] at hv
        have h1 : 0 < fa * (pm - price) := not_le.mp hsign
        have hfa0 : fa ≠ 0 := by
          intro h0
          rw [h0, zero_mul] at h1
          exact lt_irrefl 0 h1
        have hfa2 : 0 < fa ^ 2 :=
          lt_of_le_of_ne (sq_nonneg fa) (Ne.symm (pow_ne_zero 2 hfa0))
        have hkey : (fa * (pm - price)) * (fa * fb) ≤ 0 :=
          mul_nonpos_of_nonneg_of_nonpos h1.le hstr
        have hmb : (pm - price) * fb ≤ 0 := by nlinarith
        have hres := ih hpm hb rfl hfb (by rw [hfb]; rw [hfb] at hmb; exact hmb) hm2
          (fun x hx1 hx2 => htot x (le_trans hm1 hx1) hx2) hv
        rcases hres with hl | ⟨a2, b2, pa2, pb2, h1x, h2x, h3x, h4x, h5x, h6x⟩
        · exact Or.inl hl
        · refine Or.inr ⟨a2, b2, pa2, pb2, h1x, h2x, ?_, h4x, h5x, h6x⟩
          rw [h3x, pow_succ]
          have h2n : (2:ℝ) ^ n ≠ 0 := by positivity
          field_simp
          ring

open Classical in
lemma implied_vol_eval {side : String} {S K T price r q lo hi tol : ℝ} {mi : Nat}
    (hguard : ¬(price ≤ 0 ∨ S ≤ 0 ∨ K ≤ 0 ∨ T ≤ 0))
    {ab : ℝ × ℝ} {pa pb : ℝ}
    (hexp : ivExpand (fun sg => bs_price side S K T r q sg) price 10 lo hi = some ab)
    (ha : bs_price side S K T r q ab.1 = some pa)
    (hb : bs_price side S K T r q ab.2 = some pb) :
    implied_vol side S K T price r q lo hi tol mi =
      if 0 < (pa - price) * (pb - price) then none
      else ivBisect (fun sg => bs_price side S K T r q sg) price tol mi ab.1 ab.2
        (pa - price) (pb - price) := by
  simp only [implied_vol]
  rw [if_neg hguard]
  simp only [hexp, ha, hb]

/-- C1 (amended): when `implied_vol` returns a volatility `v`, either the
model price at `v` reproduces the observed price within the solver's
tolerance, or `v` lies inside a bracket that straddles the observed price
and whose width is the expanded initial bracket halved once per
iteration.  The tolerance controls the price error, not the distance to a
volatility that generated the price. -/
theorem implied_vol_price_converges (side : String) (S K T price r q lo hi tol : ℝ)
    (max_iter : Nat) (v : ℝ)
    (hlh : lo ≤ hi)
    (hv : implied_vol side S K T price r q lo hi tol max_iter = some v) :
    (∃ pv, bs_price side S K T r q v = some pv ∧ |pv - price| < tol) ∨
    (∃ a b pa pb, a ≤ v ∧ v ≤ b
      ∧ (∃ k ≤ 10, b - a = (hi * (3/2) ^ k - lo) / 2 ^ max_iter)
      ∧ bs_price side S K T r q a = some pa ∧ bs_price side S K T r q b = some pb
      ∧ (pa - price) * (pb - price) ≤ 0) := by
  by_cases hguard : price ≤ 0 ∨ S ≤ 0 ∨ K ≤ 0 ∨ T ≤ 0
  · rw [implied_vol, if_pos hguard] at hv
    cases hv
  cases hexp : ivExpand (fun sg => bs_price side S K T r q sg) price 10 lo hi with
  | none =>
    rw [implied_vol, if_neg hguard] at hv
    simp only [hexp] at hv
    exact Option.noConfusion hv
  | some ab =>
    obtain ⟨hab1, k, hk, hab2⟩ := ivExpand_shape hexp
    obtain ⟨⟨plo, hplo⟩, phi0, hphi0⟩ :=
      ivExpand_checked (n := 9) (show ivExpand _ _ (9 + 1) _ _ = some ab from hexp)
    have hplo2 : bs_price side S K T r q lo = some plo := hplo
    have hphi2 : bs_price side S K T r q hi = some phi0 := hphi0
    have hpos := (bs_price_isSome_iff side S K T r q lo).mp (by rw [hplo2]; rfl)
    have hposhi := (bs_price_isSome_iff side S K T r q hi).mp (by rw [hphi2]; rfl)
    have hS := hpos.1
    have hK := hpos.2.1
    have hT := hpos.2.2.1
    have hlo0 : 0 < lo := hpos.2.2.2
    have hhi0 : 0 < hi := hposhi.2.2.2
    have hpow : (1:ℝ) ≤ (3/2) ^ k := by
      calc (1:ℝ) = 1 ^ k := (one_pow k).symm
        _ ≤ (3/2) ^ k := pow_le_pow_left (by norm_num) (by norm_num) k
    have hb0 : 0 < ab.2 := by
      rw [hab2]
      positivity
    have habo : ab.1 ≤ ab.2 := by
      rw [hab1, hab2]
      nlinarith
    obtain ⟨pa, hpa⟩ := Option.isSome_iff_exists.mp
      ((bs_price_isSome_iff side S K T r q ab.1).mpr ⟨hS, hK, hT, by rw [hab1]; exact hlo0⟩)
    obtain ⟨pb, hpb⟩ := Option.isSome_iff_exists.mp
      ((bs_price_isSome_iff side S K T r q ab.2).mpr ⟨hS, hK, hT, hb0⟩)
    have heval := @implied_vol_eval _ _ _ _ _ _ _ _ _ tol max_iter hguard _ _ _ hexp hpa hpb
    rw [heval] at hv
    by_cases hpp : 0 < (pa - price) * (pb - price)
    · rw [if_pos hpp] at hv
      exact Option.noConfusion hv
    · rw [if_neg hpp] at hv
      have hstr : (pa - price) * (pb - price) ≤ 0 := not_lt.mp hpp
      have htot : ∀ x, ab.1 ≤ x → x ≤ ab.2 →
          ((fun sg => bs_price side S K T r q sg) x).isSome = true := by
        intro x hx1 hx2
        refine (bs_price_isSome_iff side S K T r q x).mpr ⟨hS, hK, hT, ?_⟩
        rw [hab1] at hx1
        linarith
      have hres := ivBisect_spec hpa hpb rfl rfl hstr habo htot hv
      rcases hres with hl | ⟨a2, b2, pa2, pb2, h1, h2, h3, h4, h5, h6⟩
      · exact Or.inl hl
      · refine Or.inr ⟨a2, b2, pa2, pb2, h1, h2, ⟨k, hk, ?_⟩, h4, h5, h6⟩
        rw [h3, hab2, hab1]

/-! ## Concrete evaluations of the bracket expansion -/

lemma ivExpand_break {f : ℝ → Option ℝ} {price lo hi plo phi : ℝ} {n : Nat}
    (hlo : f lo = some plo) (hhi : f hi = some phi)
    (hc : (plo - price) * (phi - price) ≤ 0) :
    ivExpand f price (n + 1) lo hi = some (lo, hi) := by
  simp only [ivExpand, hlo, hhi]
  rw [if_pos hc]

lemma ivExpand_grow {f : ℝ → Option ℝ} {price lo hi plo phi : ℝ} {n : Nat}
    (hlo : f lo = some plo) (hhi : f hi = some phi)
    (hc : ¬((plo - price) * (phi - price) ≤ 0)) (h10 : ¬((10:ℝ) < hi * 1.5)) :
    ivExpand f price (n + 1) lo hi = ivExpand f price n lo (hi * 1.5) := by
  simp only [ivExpand, hlo, hhi]
  rw [if_neg hc, if_neg h10]

lemma ivExpand_stop {f : ℝ → Option ℝ} {price lo hi plo phi : ℝ} {n : Nat}
    (hlo : f lo = some plo) (hhi : f hi = some phi)
    (hc : ¬((plo - price) * (phi - price) ≤ 0)) (h10 : (10:ℝ) < hi * 1.5) :
    ivExpand f price (n + 1) lo hi = some (lo, hi * 1.5) := by
  simp only [ivExpand, hlo, hhi]
  rw [if_neg hc, if_pos h10]

/-- At `S = K = T = 1`, `r = q = 0`, every Black-Scholes call value is
below `1`, hence below an observed price of `3`. -/
lemma ce111_below : ∀ sg : ℝ, 0 < sg →
    ∃ v, bs_price "CE" 1 1 1 0 0 sg = some v ∧ v < 3 := by
  intro sg hsg
  obtain ⟨v, hv⟩ := Option.isSome_iff_exists.mp
    ((bs_price_isSome_iff "CE" 1 1 1 0 0 sg).mpr ⟨one_pos, one_pos, one_pos, hsg⟩)
  refine ⟨v, hv, ?_⟩
  have h := bs_price_CE_le one_pos hv
  have h2 : Real.exp (-(0:ℝ) * 1) * 1 = 1 := by
    rw [show (-(0:ℝ) * 1) = 0 by ring, Real.exp_zero, mul_one]
  rw [h2] at h
  linarith

/-- Witness for C8: at `S = K = T = 1`, `r = q = 0` an observed price of
`3` exceeds every achievable call value, the expanded brackets never
straddle it, and `implied_vol` returns `None`. -/
theorem implied_vol_unresolved_below_witness :
    implied_vol "CE" 1 1 1 3 0 0 (1/10000) 5 (1/10000) 60 = none := by
  refine implied_vol_unresolved_below "CE" 1 1 1 3 0 0 (1/10000) 5 (1/10000) 60
    (by norm_num) ?_
  intro sg v hsg hv
  obtain ⟨w, hw, hw3⟩ := ce111_below sg hsg
  rw [hv] at hw
  cases hw
  exact hw3

open Classical in
/-- Modelled from the spec: the claim's bracket expansion "doubling the
upper bound" — `implied_vol`'s expansion loop with `hi *= 2` in place of
the source's `hi *= 1.5`, kept only to be compared against `ivExpand`. -/
noncomputable def ivExpandSpec (f : ℝ → Option ℝ) (price : ℝ) : Nat → ℝ → ℝ → Option (ℝ × ℝ)
  | 0, lo, hi => some (lo, hi)
  | n + 1, lo, hi =>
    match f lo, f hi with
    | some plo, some phi =>
      if (plo - price) * (phi - price) ≤ 0 then some (lo, hi)
      else
        let hi2 := hi * 2
        if 10 < hi2 then some (lo, hi2) else ivExpandSpec f price n lo hi2
    | _, _ => none

lemma ivExpandSpec_grow {f : ℝ → Option ℝ} {price lo hi plo phi : ℝ} {n : Nat}
    (hlo : f lo = some plo) (hhi : f hi = some phi)
    (hc : ¬((plo - price) * (phi - price) ≤ 0)) (h10 : ¬((10:ℝ) < hi * 2)) :
    ivExpandSpec f price (n + 1) lo hi = ivExpandSpec f price n lo (hi * 2) := by
  simp only [ivExpandSpec, hlo, hhi]
  rw [if_neg hc, if_neg h10]

lemma ivExpandSpec_stop {f : ℝ → Option ℝ} {price lo hi plo phi : ℝ} {n : Nat}
    (hlo : f lo = some plo) (hhi : f hi = some phi)
    (hc : ¬((plo - price) * (phi - price) ≤ 0)) (h10 : (10:ℝ) < hi * 2) :
    ivExpandSpec f price (n + 1) lo hi = some (lo, hi * 2) := by
  simp only [ivExpandSpec, hlo, hhi]
  rw [if_neg hc, if_pos h10]

/-- Counterexample for C8's "doubling": on a concrete never-straddling
input the source's expansion leaves the bracket at `5·1.5² = 11.25`,
while the claimed doubling expansion would leave it at `5·2² = 20`. -/
theorem ivExpand_not_doubling_cex :
    ivExpand (fun sg => bs_price "CE" 1 1 1 0 0 sg) 3 10 (1/10000) 5
        = some (1/10000, 45/4)
    ∧ ivExpandSpec (fun sg => bs_price "CE" 1 1 1 0 0 sg) 3 10 (1/10000) 5
        = some (1/10000, 20)
    ∧ (45/4 : ℝ) ≠ 20 := by
  obtain ⟨plo, hplo, hplo3⟩ := ce111_below (1/10000) (by norm_num)
  obtain ⟨p5, hp5, hp53⟩ := ce111_below 5 (by norm_num)
  obtain ⟨p75, hp75, hp753⟩ := ce111_below (15/2) (by norm_num)
  obtain ⟨p10, hp10, hp103⟩ := ce111_below 10 (by norm_num)
  have h75 : bs_price "CE" 1 1 1 0 0 ((5:ℝ) * 1.5) = some p75 := by
    rw [show ((5:ℝ) * 1.5) = 15/2 by norm_num]
    exact hp75
  have h10b : bs_price "CE" 1 1 1 0 0 ((5:ℝ) * 2) = some p10 := by
    rw [show ((5:ℝ) * 2) = 10 by norm_num]
    exact hp10
  have hc1 : ¬((plo - 3) * (p5 - 3) ≤ 0) :=
    not_le.mpr (mul_pos_of_neg_of_neg (by linarith) (by linarith))
  have hc2 : ¬((plo - 3) * (p75 - 3) ≤ 0) :=
    not_le.mpr (mul_pos_of_neg_of_neg (by linarith) (by linarith))
  have hc3 : ¬((plo - 3) * (p10 - 3) ≤ 0) :=
    not_le.mpr (mul_pos_of_neg_of_neg (by linarith) (by linarith))
  refine ⟨?_, ?_, by norm_num⟩
  · have e1 : ivExpand (fun sg => bs_price "CE" 1 1 1 0 0 sg) 3 10 (1/10000) 5
        = ivExpand (fun sg => bs_price "CE" 1 1 1 0 0 sg) 3 9 (1/10000) (5 * 1.5) :=
      ivExpand_grow (n := 9) hplo hp5 hc1 (by norm_num)
    have e2 : ivExpand (fun sg => bs_price "CE" 1 1 1 0 0 sg) 3 9 (1/10000) (5 * 1.5)
        = some (1/10000, (5:ℝ) * 1.5 * 1.5) :=
      ivExpand_stop (n := 8) hplo h75 hc2 (by norm_num)
    rw [e1, e2]
    norm_num
  · have e1 : ivExpandSpec (fun sg => bs_price "CE" 1 1 1 0 0 sg) 3 10 (1/10000) 5
        = ivExpandSpec (fun sg => bs_price "CE" 1 1 1 0 0 sg) 3 9 (1/10000) (5 * 2) :=
      ivExpandSpec_grow (n := 9) hplo hp5 hc1 (by norm_num)
    have e2 : ivExpandSpec (fun sg => bs_price "CE" 1 1 1 0 0 sg) 3 9 (1/10000) (5 * 2)
        = some (1/10000, (5:ℝ) * 2 * 2) :=
      ivExpandSpec_stop (n := 8) hplo h10b hc3 (by norm_num)
    rw [e1, e2]
    norm_num

/-! ## C1: the left-inverse claim -/

lemma implied_vol_eval_at_one :
    implied_vol "CE" 1 1 1 ((bs_price "CE" 1 1 1 0 0 1).getD 0) 0 0 1 2 (1/10000) 0
      = some (3/2) := by
  have hd1 : bsD1 1 1 1 0 0 1 = 1/2 := by
    unfold bsD1
    norm_num [Real.log_one, Real.sqrt_one]
  have hd2 : bsD2 1 1 1 0 0 1 = -(1/2) := by
    unfold bsD2
    rw [hd1]
    norm_num [Real.sqrt_one]
  have hc : bs_price "CE" 1 1 1 0 0 1 = some (_Phi (1/2) - _Phi (-(1/2))) := by
    rw [bs_price_CE_eq one_pos one_pos one_pos one_pos, hd1, hd2]
    norm_num [Real.exp_zero]
  have hp0 : (bs_price "CE" 1 1 1 0 0 1).getD 0 = _Phi (1/2) - _Phi (-(1/2)) := by
    rw [hc]
    rfl
  have hcpos : 0 < _Phi (1/2) - _Phi (-(1/2)) := by
    have h := Phi_strict_mono (show (-(1/2):ℝ) < 1/2 by norm_num)
    linarith
  obtain ⟨p2, hp2⟩ := Option.isSome_iff_exists.mp
    ((bs_price_isSome_iff "CE" 1 1 1 0 0 2).mpr ⟨one_pos, one_pos, one_pos, by norm_num⟩)
  rw [hp0]
  have hguard : ¬((_Phi (1/2) - _Phi (-(1/2)) ≤ 0) ∨ (1:ℝ) ≤ 0 ∨ (1:ℝ) ≤ 0 ∨ (1:ℝ) ≤ 0) := by
    push_neg
    exact ⟨hcpos, by norm_num, by norm_num, by norm_num⟩
  have hbreak : ivExpand (fun sg => bs_price "CE" 1 1 1 0 0 sg)
      (_Phi (1/2) - _Phi (-(1/2))) 10 1 2 = some (1, 2) := by
    refine ivExpand_break (n := 9) hc hp2 ?_
    have hz : _Phi (1/2) - _Phi (-(1/2)) - (_Phi (1/2) - _Phi (-(1/2))) = 0 := by ring
    rw [hz, zero_mul]
  have heval := @implied_vol_eval _ _ _ _ _ _ _ _ _ (1/10000) 0 hguard _ _ _ hbreak hc hp2
  rw [heval]
  have hz2 : (_Phi (1/2) - _Phi (-(1/2)) - (_Phi (1/2) - _Phi (-(1/2))))
      * (p2 - (_Phi (1/2) - _Phi (-(1/2)))) = 0 := by ring
  rw [if_neg (by rw [hz2]; exact lt_irrefl 0)]
  simp only [ivBisect]
  norm_num

/-- Witness for the amended C1 at a concrete input where `implied_vol`
provably returns a value. -/
theorem implied_vol_price_converges_witness :
    (∃ pv, bs_price "CE" 1 1 1 0 0 (3/2) = some pv
        ∧ |pv - (bs_price "CE" 1 1 1 0 0 1).getD 0| < 1/10000) ∨
    (∃ a b pa pb, a ≤ (3/2:ℝ) ∧ (3/2:ℝ) ≤ b
      ∧ (∃ k ≤ 10, b - a = ((2:ℝ) * (3/2) ^ k - 1) / 2 ^ 0)
      ∧ bs_price "CE" 1 1 1 0 0 a = some pa ∧ bs_price "CE" 1 1 1 0 0 b = some pb
      ∧ (pa - (bs_price "CE" 1 1 1 0 0 1).getD 0)
          * (pb - (bs_price "CE" 1 1 1 0 0 1).getD 0) ≤ 0) :=
  implied_vol_price_converges "CE" 1 1 1 ((bs_price "CE" 1 1 1 0 0 1).getD 0) 0 0 1 2
    (1/10000) 0 (3/2) (by norm_num) implied_vol_eval_at_one

lemma log_1e5_ge_four : (4:ℝ) ≤ Real.log 100000 := by
  rw [Real.le_log_iff_exp_le (by norm_num : (0:ℝ) < 100000)]
  have he : Real.exp 4 = Real.exp 1 ^ (4:ℕ) := by
    rw [← Real.exp_nat_mul]
    norm_num
  have h1 := Real.exp_one_lt_d9
  have h0 := Real.exp_pos 1
  have h2 : Real.exp 1 ^ (4:ℕ) < 2.7182818286 ^ (4:ℕ) :=
    pow_lt_pow_left h1 h0.le (by norm_num)
  have h3 : (2.7182818286:ℝ) ^ (4:ℕ) ≤ 100000 := by norm_num
  rw [he]
  linarith

/-- Deep in-the-money price band: at `S = 1`, `K = 1e-5`, `T = 1`,
`r = q = 0`, the call value lies in `[1 - 1.5e-5, 1]` for every positive
volatility, so all bisection iterates price within the solver's
tolerance of each other while σ itself is unconstrained. -/
lemma deep_itm_band : ∀ sg v : ℝ, 0 < sg →
    bs_price "CE" 1 (1/100000) 1 0 0 sg = some v →
    1 - 3/200000 ≤ v ∧ v ≤ 1 := by
  intro sg v hsg hv
  rw [bs_price_CE_eq one_pos (by norm_num) one_pos hsg] at hv
  have hv2 := (Option.some_injective _ hv).symm
  set L : ℝ := Real.log 100000 with hLdef
  have hL4 : (4:ℝ) ≤ L := log_1e5_ge_four
  have hL0 : (0:ℝ) ≤ L := by linarith
  have hd1 : bsD1 1 (1/100000) 1 0 0 sg = (L + 1/2 * sg * sg) / sg := by
    unfold bsD1
    rw [show ((1:ℝ) / (1/100000)) = 100000 by norm_num]
    rw [Real.sqrt_one, ← hLdef]
    ring
  set sL : ℝ := Real.sqrt L with hsLdef
  have hsLsq : sL ^ 2 = L := Real.sq_sqrt hL0
  have hsL2 : (2:ℝ) ≤ sL := by
    rw [hsLdef, show (2:ℝ) = Real.sqrt 4 by
      rw [show (4:ℝ) = 2 ^ 2 by norm_num, Real.sqrt_sq (by norm_num)]]
    exact Real.sqrt_le_sqrt hL4
  have hs2sq : Real.sqrt 2 ^ 2 = 2 := Real.sq_sqrt (by norm_num)
  have hs2pos : (0:ℝ) < Real.sqrt 2 := Real.sqrt_pos.mpr (by norm_num)
  have hamgm : Real.sqrt 2 * sL ≤ bsD1 1 (1/100000) 1 0 0 sg := by
    rw [hd1, le_div_iff hsg]
    nlinarith [sq_nonneg (sg - Real.sqrt 2 * sL)]
  set d1 : ℝ := bsD1 1 (1/100000) 1 0 0 sg
  set y : ℝ := d1 / Real.sqrt 2 with hydef
  have hysL : sL ≤ y := by
    rw [hydef, le_div_iff hs2pos]
    nlinarith
  have hy2 : (2:ℝ) ≤ y := by linarith
  have hyL : L ≤ y ^ 2 := by
    calc L = sL ^ 2 := hsLsq.symm
      _ ≤ y ^ 2 := by nlinarith
  have herf : 1 - Real.exp (-y ^ 2) ≤ erf y := by
    have h := one_sub_erf_le hy2
    linarith
  have hexpL : Real.exp (-y ^ 2) ≤ 1/100000 := by
    have h1 : Real.exp (-y ^ 2) ≤ Real.exp (-L) := Real.exp_le_exp.mpr (by linarith)
    have h2 : Real.exp (-L) = 1/100000 := by
      rw [hLdef, Real.exp_neg, Real.exp_log (by norm_num : (0:ℝ) < 100000)]
      norm_num
    linarith
  have hPhi1 : 1 - 1/200000 ≤ _Phi d1 := by
    unfold _Phi
    have h := herf
    rw [← hydef]
    nlinarith
  have hPhi1u := Phi_le_one d1
  have hPhi2l := Phi_nonneg (bsD2 1 (1/100000) 1 0 0 sg)
  have hPhi2u := Phi_le_one (bsD2 1 (1/100000) 1 0 0 sg)
  have hE : Real.exp (-(0:ℝ) * 1) = 1 := by
    rw [show (-(0:ℝ) * 1) = 0 by ring, Real.exp_zero]
  rw [hv2, hE]
  constructor
  · nlinarith
  · nlinarith

lemma ivBisect_tol_exit {f : ℝ → Option ℝ} {price tol a b fa fb pm : ℝ} {n : Nat}
    (hpm : f ((a + b) / 2) = some pm) (htol : |pm - price| < tol) :
    ivBisect f price tol (n + 1) a b fa fb = some ((a + b) / 2) := by
  simp only [ivBisect, hpm]
  rw [if_pos htol]

/-- Counterexample for C1: at `S = 1`, `K = 1e-5`, `T = 1`, `r = q = 0`,
σ₀ = 0.05, feeding `bs_price`'s own output back into `implied_vol`
either fails to resolve or returns a volatility at distance ≥ 1 from
σ₀ — far beyond any tolerance — because deep in the money the price
pins none of the volatilities down. -/
theorem implied_vol_left_inverse_cex :
    implied_vol "CE" 1 (1/100000) 1
        ((bs_price "CE" 1 (1/100000) 1 0 0 (1/20)).getD 0) 0 0 (1/10000) 5 (1/10000) 60
      = none
    ∨ ∃ v, implied_vol "CE" 1 (1/100000) 1
        ((bs_price "CE" 1 (1/100000) 1 0 0 (1/20)).getD 0) 0 0 (1/10000) 5 (1/10000) 60
      = some v ∧ 1 ≤ |v - 1/20| := by
  obtain ⟨p0, hp0⟩ := Option.isSome_iff_exists.mp
    ((bs_price_isSome_iff "CE" 1 (1/100000) 1 0 0 (1/20)).mpr
      ⟨one_pos, by norm_num, one_pos, by norm_num⟩)
  rw [hp0, Option.getD_some]
  have hband0 := deep_itm_band (1/20) p0 (by norm_num) hp0
  have hguard : ¬(p0 ≤ 0 ∨ (1:ℝ) ≤ 0 ∨ (1/100000:ℝ) ≤ 0 ∨ (1:ℝ) ≤ 0) := by
    push_neg
    refine ⟨by linarith [hband0.1], by norm_num, by norm_num, by norm_num⟩
  cases hexp : ivExpand (fun sg => bs_price "CE" 1 (1/100000) 1 0 0 sg) p0 10 (1/10000) 5 with
  | none =>
    left
    simp only [implied_vol]
    rw [if_neg hguard]
    simp only [hexp]
  | some ab =>
    obtain ⟨hab1, k, hk, hab2⟩ := ivExpand_shape hexp
    have hpow : (1:ℝ) ≤ (3/2) ^ k := by
      calc (1:ℝ) = 1 ^ k := (one_pow k).symm
        _ ≤ (3/2) ^ k := pow_le_pow_left (by norm_num) (by norm_num) k
    have hb5 : (5:ℝ) ≤ ab.2 := by
      rw [hab2]
      nlinarith
    have ha0 : 0 < ab.1 := by
      rw [hab1]
      norm_num
    have hb0 : (0:ℝ) < ab.2 := by linarith
    obtain ⟨pa, hpa⟩ := Option.isSome_iff_exists.mp
      ((bs_price_isSome_iff "CE" 1 (1/100000) 1 0 0 ab.1).mpr
        ⟨one_pos, by norm_num, one_pos, ha0⟩)
    obtain ⟨pb, hpb⟩ := Option.isSome_iff_exists.mp
      ((bs_price_isSome_iff "CE" 1 (1/100000) 1 0 0 ab.2).mpr
        ⟨one_pos, by norm_num, one_pos, hb0⟩)
    have heval := @implied_vol_eval _ _ _ _ _ _ _ _ _ (1/10000) 60 hguard _ _ _ hexp hpa hpb
    by_cases hpp : 0 < (pa - p0) * (pb - p0)
    · left
      rw [heval, if_pos hpp]
    · right
      have hm0 : 0 < (ab.1 + ab.2) / 2 := by linarith
      obtain ⟨pm, hpm⟩ := Option.isSome_iff_exists.mp
        ((bs_price_isSome_iff "CE" 1 (1/100000) 1 0 0 ((ab.1 + ab.2) / 2)).mpr
          ⟨one_pos, by norm_num, one_pos, hm0⟩)
      have hbandm := deep_itm_band _ pm hm0 hpm
      have htol : |pm - p0| < 1/10000 := by
        rw [abs_lt]
        constructor
        · linarith [hbandm.1, hband0.2]
        · linarith [hbandm.2, hband0.1]
      refine ⟨(ab.1 + ab.2) / 2, ?_, ?_⟩
      · rw [heval, if_neg hpp]
        exact ivBisect_tol_exit (n := 59) hpm htol
      · have hge : (1/10000 + 5) / 2 ≤ (ab.1 + ab.2) / 2 := by
          rw [hab1] at ha0 ⊢
          linarith
        rw [abs_of_nonneg (by linarith)]
        rw [hab1] at hge
        linarith

/-! ## C9: the candidate strike ring -/

/-- C9 (amended): with the ATM strike present in the sorted strike list,
`_ring` is exactly the index window — the strikes within `steps` list
positions of the ATM index, clamped to the ends — with no
percentage-band component. -/
theorem ring_eq_index_window (strikes : List ℚ) (atm : ℚ) (steps : Nat) (x : ℚ)
    (hmem : atm ∈ strikes) :
    x ∈ _ring strikes atm steps ↔
      ∃ j : Fin strikes.length, strikes.get j = x
        ∧ strikes.indexOf atm - steps ≤ j.1 ∧ j.1 ≤ strikes.indexOf atm + steps := by
  have hilt : strikes.indexOf atm < strikes.length := List.indexOf_lt_length.mpr hmem
  have hmin1 : min (strikes.length - 1) (strikes.indexOf atm + steps)
      ≤ strikes.indexOf atm + steps := min_le_right _ _
  have hmin2 : min (strikes.length - 1) (strikes.indexOf atm + steps)
      ≤ strikes.length - 1 := min_le_left _ _
  have hring : _ring strikes atm steps
      = (strikes.drop (strikes.indexOf atm - steps)).take
          (min (strikes.length - 1) (strikes.indexOf atm + steps) + 1
            - (strikes.indexOf atm - steps)) := by
    unfold _ring
    rw [if_pos hmem]
  rw [hring]
  constructor
  · intro hx
    obtain ⟨j, hget⟩ := List.mem_iff_get.mp hx
    have hj := j.isLt
    simp only [List.length_take, List.length_drop, lt_min_iff] at hj
    have hb1 : (strikes.indexOf atm - steps) + j.1 < strikes.length := by omega
    have hval : strikes.get ⟨(strikes.indexOf atm - steps) + j.1, hb1⟩ = x := by
      rw [← hget, List.get_eq_getElem, List.get_eq_getElem, List.getElem_take,
        List.getElem_drop]
    refine ⟨⟨(strikes.indexOf atm - steps) + j.1, hb1⟩, hval, ?_, ?_⟩
    · show strikes.indexOf atm - steps ≤ strikes.indexOf atm - steps + j.1
      omega
    · show strikes.indexOf atm - steps + j.1 ≤ strikes.indexOf atm + steps
      omega
  · rintro ⟨j, hget, h1, h2⟩
    have hjlt : j.1 < strikes.length := j.isLt
    have hm3 : j.1 ≤ min (strikes.length - 1) (strikes.indexOf atm + steps) :=
      le_min (by omega) h2
    have hb2 : j.1 - (strikes.indexOf atm - steps)
        < min (min (strikes.length - 1) (strikes.indexOf atm + steps) + 1
            - (strikes.indexOf atm - steps)) (strikes.length - (strikes.indexOf atm - steps)) := by
      refine lt_min (by omega) (by omega)
    have hlen2 : j.1 - (strikes.indexOf atm - steps)
        < (List.take (min (strikes.length - 1) (strikes.indexOf atm + steps) + 1
            - (strikes.indexOf atm - steps))
            (List.drop (strikes.indexOf atm - steps) strikes)).length := by
      simp only [List.length_take, List.length_drop]
      exact hb2
    have hb4 : (strikes.indexOf atm - steps) + (j.1 - (strikes.indexOf atm - steps))
        < strikes.length := by omega
    refine List.mem_iff_get.mpr ⟨⟨j.1 - (strikes.indexOf atm - steps), hlen2⟩, ?_⟩
    have hval2 : (List.take (min (strikes.length - 1) (strikes.indexOf atm + steps) + 1
            - (strikes.indexOf atm - steps))
            (List.drop (strikes.indexOf atm - steps) strikes)).get
          ⟨j.1 - (strikes.indexOf atm - steps), hlen2⟩
        = strikes.get ⟨(strikes.indexOf atm - steps) + (j.1 - (strikes.indexOf atm - steps)),
            hb4⟩ := by
      rw [List.get_eq_getElem, List.get_eq_getElem, List.getElem_take, List.getElem_drop]
    rw [hval2, ← hget]
    exact congrArg strikes.get (Fin.ext (show (strikes.indexOf atm - steps)
      + (j.1 - (strikes.indexOf atm - steps)) = j.1 by omega))

/-- Witness for the amended C9 on a concrete strike list. -/
theorem ring_eq_index_window_witness :
    (105:ℚ) ∈ _ring [100, 105] 100 4 ↔
      ∃ j : Fin (([100, 105] : List ℚ)).length, ([100, 105] : List ℚ).get j = 105
        ∧ ([100, 105] : List ℚ).indexOf 100 - 4 ≤ j.1
        ∧ j.1 ≤ ([100, 105] : List ℚ).indexOf 100 + 4 :=
  ring_eq_index_window [100, 105] 100 4 105 (by norm_num)

/-- Modelled from the spec: the claimed candidate ring — the union of
(a) the index window (which is all `_ring` computes) and (b) all listed
strikes within a configured percentage band of the reference price, a
component with no counterpart in the source. -/
def ringSpec (strikes : List ℚ) (atm : ℚ) (steps : Nat) (px band : ℚ) : List ℚ :=
  _ring strikes atm steps ++ strikes.filter (fun s => decide (|s - px| ≤ band * px))

/-- Counterexample for C9: with strikes 100..106, ATM 100 and a 5% band,
the claimed union contains 105 (within the band) but the computed ring
does not — `_ring` has no percentage-band component. -/
theorem ring_missing_band_cex :
    (105:ℚ) ∈ ringSpec [100, 101, 102, 103, 104, 105, 106] 100 4 100 (5/100)
    ∧ (105:ℚ) ∉ _ring [100, 101, 102, 103, 104, 105, 106] 100 4 := by
  constructor
  · unfold ringSpec
    refine List.mem_append.mpr (Or.inr (List.mem_filter.mpr ⟨by decide, ?_⟩))
    rw [decide_eq_true_eq]
    norm_num
  · decide

/-! ## Facts about the scan pipeline -/

lemma lookupA_mem {β : Type} {l : List (String × β)} {k : String} {v : β}
    (h : lookupA l k = some v) : (k, v) ∈ l := by
  induction l with
  | nil => simp [lookupA] at h
  | cons p t ih =>
    simp only [lookupA] at h
    by_cases hk : p.1 = k
    · rw [if_pos hk] at h
      cases h
      have hp : (k, p.2) = p := by
        rw [← hk]
      rw [hp]
      exact List.mem_cons_self _ _
    · rw [if_neg hk] at h
      exact List.mem_cons_of_mem _ (ih h)

lemma candidatesOf_eq {cfg : Config} {kite : Kite} {today : Nat}
    {rawN : List RawNFO} {rawS : List RawNSE} {e : Nat}
    (h1 : kite.instrumentsNFO = Except.ok rawN)
    (h2 : kite.instrumentsNSE = Except.ok rawS)
    (h4 : _nearest_expiry (_slim_rows_nfo rawN NIFTY50) today = some e) :
    candidatesOf cfg kite today
      = candidatesFrom cfg
          ((_slim_rows_nfo rawN NIFTY50).filter (fun r => r.expiry == some e))
          (taOf kite (_map_tokens (_slim_rows_nse rawS NIFTY50) NIFTY50)) := by
  simp only [candidatesOf, h1, h2, h4]

lemma taTableOf_eq {kite : Kite} {rawS : List RawNSE}
    (h2 : kite.instrumentsNSE = Except.ok rawS) :
    taTableOf kite = taOf kite (_map_tokens (_slim_rows_nse rawS NIFTY50) NIFTY50) := by
  simp only [taTableOf, h2]

open Classical in
/-- The scan on its full path: provider calls succeed, the slim NFO list
is nonempty, an expiry resolves, and candidates exist. -/
lemma run_smc_scan_full {cfg : Config} {kite : Kite} {today : Nat}
    {rawN : List RawNFO} {rawS : List RawNSE} {e : Nat}
    (h1 : kite.instrumentsNFO = Except.ok rawN)
    (h2 : kite.instrumentsNSE = Except.ok rawS)
    (h3 : _slim_rows_nfo rawN NIFTY50 ≠ [])
    (h4 : _nearest_expiry (_slim_rows_nfo rawN NIFTY50) today = some e)
    (h5 : candidatesOf cfg kite today ≠ []) :
    (run_smc_scan cfg kite today).status = "ok"
    ∧ (run_smc_scan cfg kite today).picks
        = (List.insertionSort (fun a b => b.score ≤ a.score)
            ((candidatesOf cfg kite today).map
              (scoreEntry cfg today (quotesOf cfg kite today) (taTableOf kite)))).take 50
    ∧ (run_smc_scan cfg kite today).errors
        = (quotesFrom kite (candidatesOf cfg kite today)).2 := by
  have hce := @candidatesOf_eq cfg kite today rawN rawS e h1 h2 h4
  have hta := @taTableOf_eq kite rawS h2
  have hqe : quotesOf cfg kite today = (quotesFrom kite (candidatesOf cfg kite today)).1 := rfl
  rw [hce] at h5
  simp only [run_smc_scan, h1, h2, if_neg h3, h4]
  rw [if_neg h5]
  rw [hce, hta, hqe, hce]
  exact ⟨rfl, rfl, rfl⟩

open Classical in
/-- Every emitted pick is the scored image of some candidate. -/
lemma mem_picks {cfg : Config} {kite : Kite} {today : Nat} {p : Pick}
    (hp : p ∈ (run_smc_scan cfg kite today).picks) :
    ∃ c ∈ candidatesOf cfg kite today,
      p = scoreEntry cfg today (quotesOf cfg kite today) (taTableOf kite) c := by
  cases h1 : kite.instrumentsNFO with
  | error e1 =>
    simp only [run_smc_scan, h1] at hp
    simp at hp
  | ok rawN =>
    cases h2 : kite.instrumentsNSE with
    | error e2 =>
      simp only [run_smc_scan, h1, h2] at hp
      simp at hp
    | ok rawS =>
      by_cases h3 : _slim_rows_nfo rawN NIFTY50 = []
      · simp only [run_smc_scan, h1, h2, if_pos h3] at hp
        simp at hp
      · cases h4 : _nearest_expiry (_slim_rows_nfo rawN NIFTY50) today with
        | none =>
          simp only [run_smc_scan, h1, h2, if_neg h3, h4] at hp
          simp at hp
        | some e =>
          have hce := @candidatesOf_eq cfg kite today rawN rawS e h1 h2 h4
          by_cases h5 : candidatesOf cfg kite today = []
          · rw [hce] at h5
            simp only [run_smc_scan, h1, h2, if_neg h3, h4, if_pos h5] at hp
            simp at hp
          · have hfull := run_smc_scan_full h1 h2 h3 h4 h5
            rw [hfull.2.1] at hp
            have hp2 := List.mem_of_mem_take hp
            have hp3 := (List.perm_insertionSort _ _).mem_iff.mp hp2
            obtain ⟨c, hc, hpc⟩ := List.mem_map.mp hp3
            exact ⟨c, hc, hpc.symm⟩

lemma sizing_core {budget ltp : ℚ} {lot lots : ℤ} {F : String}
    (hb : 0 ≤ budget) (hltp : 0 ≤ ltp) (hlot : 1 ≤ lot)
    (hlots : lots = if F = "LONG" ∧ 0 < ltp * (lot:ℚ)
        then Int.floor (budget / (ltp * (lot:ℚ))) else 0) :
    (F = "LONG" → (lots:ℚ) * (lot:ℚ) * ltp ≤ budget
      ∧ lots = Int.floor (budget / (ltp * (lot:ℚ))))
    ∧ (F = "SHORT" → lots = 0) := by
  constructor
  · intro hF
    by_cases hc : 0 < ltp * (lot:ℚ)
    · rw [hlots, if_pos ⟨hF, hc⟩]
      refine ⟨?_, rfl⟩
      have h1 : ((Int.floor (budget / (ltp * (lot:ℚ))) : ℚ)) * (ltp * (lot:ℚ)) ≤ budget := by
        have h2 := mul_le_mul_of_nonneg_right (Int.floor_le (budget / (ltp * (lot:ℚ)))) hc.le
        rwa [div_mul_cancel₀ _ (ne_of_gt hc)] at h2
      calc ((Int.floor (budget / (ltp * (lot:ℚ))) : ℚ)) * (lot:ℚ) * ltp
          = ((Int.floor (budget / (ltp * (lot:ℚ))) : ℚ)) * (ltp * (lot:ℚ)) := by ring
        _ ≤ budget := h1
    · rw [hlots, if_neg (fun hand => hc hand.2)]
      have hc0 : ltp * (lot:ℚ) = 0 := by
        have hnn : 0 ≤ ltp * (lot:ℚ) :=
          mul_nonneg hltp (by exact_mod_cast le_trans zero_le_one hlot)
        have := not_lt.mp hc
        linarith
      rw [hc0, div_zero, Int.floor_zero]
      simpa using hb
  · intro hF
    rw [hlots, if_neg ?_]
    rintro ⟨hF2, _⟩
    rw [hF] at hF2
    exact absurd hF2 (by decide)

lemma scoreEntry_sizing {cfg : Config} {today : Nat} {quotes : List (String × Quote)}
    {ta : List (String × TAData)} {c : Candidate}
    (hb : 0 ≤ cfg.budget)
    (hq : ∀ s qt, (s, qt) ∈ quotes → ∀ pr, qt.last_price = some pr → 0 ≤ pr) :
    ((scoreEntry cfg today quotes ta c).trade_type = "LONG" →
      ((scoreEntry cfg today quotes ta c).suggested_lots : ℚ)
          * ((scoreEntry cfg today quotes ta c).lot_size : ℚ)
          * (scoreEntry cfg today quotes ta c).ltp ≤ cfg.budget
      ∧ (scoreEntry cfg today quotes ta c).suggested_lots
          = Int.floor (cfg.budget / ((scoreEntry cfg today quotes ta c).ltp
              * ((scoreEntry cfg today quotes ta c).lot_size : ℚ))))
    ∧ ((scoreEntry cfg today quotes ta c).trade_type = "SHORT" →
      (scoreEntry cfg today quotes ta c).suggested_lots = 0) := by
  have hltpdef : (scoreEntry cfg today quotes ta c).ltp
      = ((lookupA quotes c.sym).bind (fun x => x.last_price)).getD 0 := rfl
  have hltp : 0 ≤ (scoreEntry cfg today quotes ta c).ltp := by
    rw [hltpdef]
    cases hqq : lookupA quotes c.sym with
    | none => simp
    | some qt =>
      cases hlp : qt.last_price with
      | none => simp [hlp]
      | some pr =>
        have hge := hq c.sym qt (lookupA_mem hqq) pr hlp
        simp only [Option.some_bind, hlp, Option.getD_some]
        exact hge
  have hlot : 1 ≤ (scoreEntry cfg today quotes ta c).lot_size := by
    show (1:ℤ) ≤ (match c.meta.lot_size with
      | some n => if n = 0 then 1 else (n : ℤ)
      | none => 1)
    cases hn : c.meta.lot_size with
    | none => simp
    | some n =>
      by_cases h0 : n = 0
      · simp [h0]
      · simp only [if_neg h0]
        exact_mod_cast Nat.one_le_iff_ne_zero.mpr h0
  exact sizing_core hb hltp hlot rfl

/-- C3 (invariants): with a non-negative budget and non-negative quoted
prices, every emitted pick respects the budget when LONG — its lot count
is the floor of budget over lot cost — and SHORT picks always carry zero
suggested lots. -/
theorem smc_picks_sizing (cfg : Config) (kite : Kite) (today : Nat)
    (hb : 0 ≤ cfg.budget)
    (hq : ∀ s qt, (s, qt) ∈ quotesOf cfg kite today →
      ∀ pr, qt.last_price = some pr → 0 ≤ pr) :
    (run_smc_scan cfg kite today).picks.Forall (fun p =>
      (p.trade_type = "LONG" →
        (p.suggested_lots : ℚ) * (p.lot_size : ℚ) * p.ltp ≤ cfg.budget
        ∧ p.suggested_lots = Int.floor (cfg.budget / (p.ltp * (p.lot_size : ℚ))))
      ∧ (p.trade_type = "SHORT" → p.suggested_lots = 0)) := by
  rw [List.forall_iff_forall_mem]
  intro p hp
  obtain ⟨c, hc, rfl⟩ := mem_picks hp
  exact scoreEntry_sizing hb hq

/-- A provider with no data at all: the degenerate scan input. -/
def kiteEmpty : Kite :=
  { instrumentsNFO := Except.ok []
    instrumentsNSE := Except.ok []
    historical_data := fun _ => Except.ok []
    quote := fun _ => Except.ok [] }

/-- Witness for C3 at a concrete input. -/
theorem smc_picks_sizing_witness :
    (run_smc_scan defaultConfig kiteEmpty 0).picks.Forall (fun p =>
      (p.trade_type = "LONG" →
        (p.suggested_lots : ℚ) * (p.lot_size : ℚ) * p.ltp ≤ defaultConfig.budget
        ∧ p.suggested_lots = Int.floor (defaultConfig.budget / (p.ltp * (p.lot_size : ℚ))))
      ∧ (p.trade_type = "SHORT" → p.suggested_lots = 0)) := by
  refine smc_picks_sizing defaultConfig kiteEmpty 0 (by norm_num [defaultConfig]) ?_
  intro s qt hmem
  rw [show quotesOf defaultConfig kiteEmpty 0 = [] from rfl] at hmem
  exact absurd hmem (List.not_mem_nil _)

/-- C4 (error handling): hard prerequisite failures — an empty slimmed
instrument universe, or no resolvable expiry — yield a structured result
with status `"error"`, no picks and the documented message, returning
immediately; and every scan invocation ends in status `"ok"` or
`"error"` (the model is total: no exception crosses the core boundary,
a provider exception surfaces as a status-`"error"` result). -/
theorem smc_error_paths (cfg : Config) (kite : Kite) (today : Nat) :
    (∀ rawN rawS, kite.instrumentsNFO = Except.ok rawN →
      kite.instrumentsNSE = Except.ok rawS →
      (_slim_rows_nfo rawN NIFTY50 = [] →
        (run_smc_scan cfg kite today).status = "error"
        ∧ (run_smc_scan cfg kite today).picks = []
        ∧ (run_smc_scan cfg kite today).errors = ["No NFO rows for NIFTY50"])
      ∧ (_slim_rows_nfo rawN NIFTY50 ≠ [] →
          _nearest_expiry (_slim_rows_nfo rawN NIFTY50) today = none →
        (run_smc_scan cfg kite today).status = "error"
        ∧ (run_smc_scan cfg kite today).picks = []
        ∧ (run_smc_scan cfg kite today).errors = ["No upcoming expiry"]))
    ∧ ((run_smc_scan cfg kite today).status = "ok"
        ∨ (run_smc_scan cfg kite today).status = "error") := by
  constructor
  · intro rawN rawS h1 h2
    constructor
    · intro h3
      simp only [run_smc_scan, h1, h2, if_pos h3]
      simp
    · intro h3 h4
      simp only [run_smc_scan, h1, h2, if_neg h3, h4]
      simp
  · cases h1 : kite.instrumentsNFO with
    | error e1 =>
      right
      simp only [run_smc_scan, h1]
    | ok rawN =>
      cases h2 : kite.instrumentsNSE with
      | error e2 =>
        right
        simp only [run_smc_scan, h1, h2]
      | ok rawS =>
        by_cases h3 : _slim_rows_nfo rawN NIFTY50 = []
        · right
          simp only [run_smc_scan, h1, h2, if_pos h3]
        · cases h4 : _nearest_expiry (_slim_rows_nfo rawN NIFTY50) today with
          | none =>
            right
            simp only [run_smc_scan, h1, h2, if_neg h3, h4]
          | some e =>
            by_cases h5 : candidatesFrom cfg
                ((_slim_rows_nfo rawN NIFTY50).filter (fun r => r.expiry == some e))
                (taOf kite (_map_tokens (_slim_rows_nse rawS NIFTY50) NIFTY50)) = []
            · left
              simp only [run_smc_scan, h1, h2, if_neg h3, h4, if_pos h5]
            · left
              simp only [run_smc_scan, h1, h2, if_neg h3, h4, if_neg h5]

/-- C5 (amended): when the scan completes its prerequisites but no
candidate survives the ring filter, the result keeps status `"ok"` —
the source has no `"degraded"` status — with the explanatory error
entry and no picks. -/
theorem smc_no_candidates_status_ok (cfg : Config) (kite : Kite) (today : Nat)
    (rawN : List RawNFO) (rawS : List RawNSE) (e : Nat)
    (h1 : kite.instrumentsNFO = Except.ok rawN)
    (h2 : kite.instrumentsNSE = Except.ok rawS)
    (h3 : _slim_rows_nfo rawN NIFTY50 ≠ [])
    (h4 : _nearest_expiry (_slim_rows_nfo rawN NIFTY50) today = some e)
    (h5 : candidatesOf cfg kite today = []) :
    (run_smc_scan cfg kite today).status = "ok"
    ∧ (run_smc_scan cfg kite today).picks = []
    ∧ (run_smc_scan cfg kite today).errors
        = ["No option candidates after ring filter"] := by
  have hce := @candidatesOf_eq cfg kite today rawN rawS e h1 h2 h4
  rw [hce] at h5
  simp only [run_smc_scan, h1, h2, if_neg h3, h4, if_pos h5]
  simp

/-- One NFO row for an underlying the NSE data knows no token for. -/
def rowNoToken : RawNFO :=
  { tradingsymbol := some "RELIANCE25JAN100CE"
    name := some "RELIANCE"
    instrument_type := some "CE"
    strike := some 100
    expiry := some 10
    lot_size := some 250 }

/-- A provider with instruments but no NSE tokens: prerequisites hold,
yet the candidate list comes out empty. -/
def kiteNoCandidates : Kite :=
  { instrumentsNFO := Except.ok [rowNoToken]
    instrumentsNSE := Except.ok []
    historical_data := fun _ => Except.ok []
    quote := fun _ => Except.ok [] }

/-- Witness for C5 at a concrete input. -/
theorem smc_no_candidates_status_ok_witness :
    (run_smc_scan defaultConfig kiteNoCandidates 0).status = "ok"
    ∧ (run_smc_scan defaultConfig kiteNoCandidates 0).picks = []
    ∧ (run_smc_scan defaultConfig kiteNoCandidates 0).errors
        = ["No option candidates after ring filter"] :=
  smc_no_candidates_status_ok defaultConfig kiteNoCandidates 0 [rowNoToken] [] 10
    rfl rfl (by decide) rfl rfl

/-- Counterexample for C5: a scan that completes with zero surviving
candidates returns status `"ok"` — not `"degraded"` — with the
explanatory error entry. -/
theorem smc_no_candidates_not_degraded_cex :
    (run_smc_scan defaultConfig kiteNoCandidates 0).status = "ok"
    ∧ (run_smc_scan defaultConfig kiteNoCandidates 0).status ≠ "degraded"
    ∧ (run_smc_scan defaultConfig kiteNoCandidates 0).errors
        = ["No option candidates after ring filter"] := by
  refine ⟨rfl, ?_, rfl⟩
  intro h
  rw [show (run_smc_scan defaultConfig kiteNoCandidates 0).status = "ok" from rfl] at h
  exact absurd h (by decide)

/-! ## C7: symbols with short history never reach the candidate list -/

/-- The bar list the scan sees for a token (empty when the provider
raises, line 363's `continue`). -/
def histListOf (kite : Kite) (t : Nat) : List Candle :=
  match kite.historical_data t with
  | Except.ok h => h
  | Except.error _ => []

/-- The symbol → token dict the scan works from. -/
def tokensOf (kite : Kite) : List (String × Option Nat) :=
  match kite.instrumentsNSE with
  | Except.ok rawS => _map_tokens (_slim_rows_nse rawS NIFTY50) NIFTY50
  | Except.error _ => []

/-- One iteration of the per-stock TA loop, named for induction. -/
def taStep (kite : Kite) (tokens : List (String × Option Nat))
    (ta : List (String × TAData)) (sym : String) : List (String × TAData) :=
  match lookupA tokens sym with
  | some (some t) =>
    if t = 0 then ta
    else
      let hist := histListOf kite t
      if hist.length < 15 then ta
      else
        let closes := hist.map (fun c => c.close)
        let highs := hist.map (fun c => c.high)
        let lows := hist.map (fun c => c.low)
        let e5 := _ema (takeLast closes 10) 5
        let e10 := _ema (takeLast closes 10) 10
        let r := _rsi (takeLast closes 15) 14
        let pv := _pivots (highs.getD (highs.length - 2) 0) (lows.getD (lows.length - 2) 0)
            (closes.getD (closes.length - 2) 0)
        let px := closes.getD (closes.length - 1) 0
        insertOv ta sym
          { ema5 := e5, ema10 := e10, rsi := r, pp := pv.1, r1 := pv.2.1, s1 := pv.2.2,
            px := px }
  | _ => ta

lemma taOf_eq_foldl (kite : Kite) (tokens : List (String × Option Nat)) :
    taOf kite tokens = NIFTY50.foldl (taStep kite tokens) [] := rfl

lemma lookupA_insertOv_ne {β : Type} (l : List (String × β)) (k k2 : String) (v : β)
    (h : k2 ≠ k) : lookupA (insertOv l k v) k2 = lookupA l k2 := by
  induction l with
  | nil =>
    simp only [insertOv, List.filter_nil, List.nil_append, lookupA]
    rw [if_neg (fun he => h he.symm)]
  | cons p t ih =>
    by_cases hp : p.1 = k
    · have hne : ¬ p.1 = k2 := fun he => h (he.symm.trans hp)
      simp only [insertOv, List.filter_cons] at ih ⊢
      rw [show (p.1 != k) = false by simp [hp]]
      simp only [Bool.false_eq_true, if_false, lookupA, if_neg hne]
      exact ih
    · simp only [insertOv, List.filter_cons] at ih ⊢
      rw [show (p.1 != k) = true by simp [hp]]
      simp only [if_true, List.cons_append, lookupA]
      by_cases hp2 : p.1 = k2
      · rw [if_pos hp2, if_pos hp2]
      · rw [if_neg hp2, if_neg hp2]
        exact ih

/-- If a symbol's token always resolves to a short (or absent) history,
the TA loop never inserts it, so the TA dict has no entry for it. -/
lemma taStep_keeps_none (kite : Kite) (tokens : List (String × Option Nat)) (sym : String)
    (hshort : ∀ t : Nat, lookupA tokens sym = some (some t) → t ≠ 0 →
      (histListOf kite t).length < 15) :
    ∀ (l : List String) (acc : List (String × TAData)),
      lookupA acc sym = none →
      lookupA (l.foldl (taStep kite tokens) acc) sym = none := by
  intro l
  induction l with
  | nil => intro acc h; exact h
  | cons s t ih =>
    intro acc h
    rw [List.foldl_cons]
    apply ih
    cases htok : lookupA tokens s with
    | none => simp only [taStep, htok]; exact h
    | some o =>
      cases o with
      | none => simp only [taStep, htok]; exact h
      | some tk =>
        simp only [taStep, htok]
        by_cases h0 : tk = 0
        · rw [if_pos h0]; exact h
        · rw [if_neg h0]
          by_cases hl : (histListOf kite tk).length < 15
          · rw [if_pos hl]; exact h
          · rw [if_neg hl]
            by_cases hs : sym = s
            · subst hs
              exact absurd (hshort tk htok h0) hl
            · rw [lookupA_insertOv_ne _ _ _ _ hs]
              exact h

lemma taOf_none (kite : Kite) (tokens : List (String × Option Nat)) (sym : String)
    (hshort : ∀ t : Nat, lookupA tokens sym = some (some t) → t ≠ 0 →
      (histListOf kite t).length < 15) :
    lookupA (taOf kite tokens) sym = none := by
  rw [taOf_eq_foldl]
  exact taStep_keeps_none kite tokens sym hshort NIFTY50 [] rfl

/-- The inner candidate-appending loop (lines 396-404), named for
induction. -/
def candInner (ta : List (String × TAData)) (nm : String) (rng : List ℚ)
    (acc2 : List Candidate) (r : RawNFO) : List Candidate :=
  match r.strike with
  | some s =>
    if s ∈ rng then
      let side := r.instrument_type.getD ""
      match lookupA ta nm with
      | some t =>
        let bt := _trade_bias_from_ta side t.ema5 t.ema10 t.px t.r1 t.s1 t.rsi
        acc2 ++ [{ sym := "NFO:" ++ r.tradingsymbol.getD "", meta := r, side := side,
                   base_type := bt.1, rationale := bt.2, nm := nm }]
      | none => acc2
    else acc2
  | none => acc2

/-- The outer per-underlying loop (lines 388-404), named for induction. -/
def candOuter (cfg : Config) (ta : List (String × TAData))
    (acc : List Candidate) (p : String × List RawNFO) : List Candidate :=
  let nm := p.1
  let rows := p.2
  let strikes := List.insertionSort (· ≤ ·) (rows.filterMap (fun r => r.strike)).dedup
  if strikes = [] then acc
  else
    let pxO : Option ℚ := (lookupA ta nm).map (fun t => t.px)
    let atm := if truthy pxO then minByAbs strikes (pxO.getD 0)
               else strikes.getD (strikes.length / 2) 0
    let rng := _ring strikes atm cfg.ring_strikes
    acc ++ rows.foldl (candInner ta nm rng) []

lemma candidatesFrom_eq_foldl (cfg : Config) (base : List RawNFO)
    (ta : List (String × TAData)) :
    candidatesFrom cfg base ta = (bucketByName base ta).foldl (candOuter cfg ta) [] := rfl

lemma candInner_ta_some (ta : List (String × TAData)) (nm : String) (rng : List ℚ) :
    ∀ (rows : List RawNFO) (acc2 : List Candidate),
      (∀ c ∈ acc2, (lookupA ta c.nm).isSome = true) →
      ∀ c ∈ rows.foldl (candInner ta nm rng) acc2, (lookupA ta c.nm).isSome = true := by
  intro rows
  induction rows with
  | nil => intro acc2 hacc; exact hacc
  | cons r t ih =>
    intro acc2 hacc
    rw [List.foldl_cons]
    apply ih
    intro c hc
    cases hr : r.strike with
    | none => simp only [candInner, hr] at hc; exact hacc c hc
    | some s =>
      simp only [candInner, hr] at hc
      by_cases hs : s ∈ rng
      · rw [if_pos hs] at hc
        cases hta : lookupA ta nm with
        | none => simp only [hta] at hc; exact hacc c hc
        | some tv =>
          simp only [hta] at hc
          rcases List.mem_append.mp hc with hin | hone
          · exact hacc c hin
          · rcases List.mem_singleton.mp hone with rfl
            simp only [hta, Option.isSome_some]
      · rw [if_neg hs] at hc
        exact hacc c hc

lemma candOuter_ta_some (cfg : Config) (ta : List (String × TAData)) :
    ∀ (l : List (String × List RawNFO)) (acc : List Candidate),
      (∀ c ∈ acc, (lookupA ta c.nm).isSome = true) →
      ∀ c ∈ l.foldl (candOuter cfg ta) acc, (lookupA ta c.nm).isSome = true := by
  intro l
  induction l with
  | nil => intro acc hacc; exact hacc
  | cons p t ih =>
    intro acc hacc
    rw [List.foldl_cons]
    apply ih
    intro c hc
    simp only [candOuter] at hc
    by_cases hst : List.insertionSort (· ≤ ·) (p.2.filterMap (fun r => r.strike)).dedup = []
    · rw [if_pos hst] at hc
      exact hacc c hc
    · rw [if_neg hst] at hc
      rcases List.mem_append.mp hc with hin | hinner
      · exact hacc c hin
      · exact candInner_ta_some ta p.1 _ p.2 [] (by intro c2 hc2; cases hc2) c hinner

/-- Every built candidate's underlying has a TA entry: the construction at
line 399 only fires under a successful TA lookup. -/
lemma candidatesFrom_nm {cfg : Config} {base : List RawNFO}
    {ta : List (String × TAData)} {c : Candidate}
    (hc : c ∈ candidatesFrom cfg base ta) : (lookupA ta c.nm).isSome = true := by
  rw [candidatesFrom_eq_foldl] at hc
  exact candOuter_ta_some cfg ta (bucketByName base ta) [] (by intro c2 hc2; cases hc2) c hc

/-- C7 (amended): an underlying whose bars are fewer than 15 (for every
token its symbol resolves to) is skipped by the TA loop, and no option
candidate — CE or PE — is built for it. -/
theorem smc_short_history_skipped (cfg : Config) (kite : Kite) (today : Nat) (sym : String)
    (hshort : ∀ t : Nat, lookupA (tokensOf kite) sym = some (some t) → t ≠ 0 →
      (histListOf kite t).length < 15) :
    (candidatesOf cfg kite today).Forall (fun c => c.nm ≠ sym) := by
  rw [List.forall_iff_forall_mem]
  intro c hc heq
  cases h1 : kite.instrumentsNFO with
  | error e1 =>
    simp only [candidatesOf, h1] at hc
    exact List.not_mem_nil c hc
  | ok rawN =>
    cases h2 : kite.instrumentsNSE with
    | error e2 =>
      simp only [candidatesOf, h1, h2] at hc
      exact List.not_mem_nil c hc
    | ok rawS =>
      cases h4 : _nearest_expiry (_slim_rows_nfo rawN NIFTY50) today with
      | none =>
        simp only [candidatesOf, h1, h2, h4] at hc
        exact List.not_mem_nil c hc
      | some e =>
        rw [candidatesOf_eq h1 h2 h4] at hc
        have hsome := candidatesFrom_nm hc
        have htok : tokensOf kite = _map_tokens (_slim_rows_nse rawS NIFTY50) NIFTY50 := by
          simp only [tokensOf, h2]
        have hnone : lookupA (taOf kite (_map_tokens (_slim_rows_nse rawS NIFTY50) NIFTY50))
            sym = none := by
          apply taOf_none
          intro t ht h0
          apply hshort t _ h0
          rw [htok]
          exact ht
        rw [heq, hnone] at hsome
        exact Bool.noConfusion hsome

/-- 14 daily bars: one short of the 15 the TA loop requires. -/
def candles14 : List Candle := List.replicate 14 { high := 1, low := 1, close := 1 }

/-- A provider whose only tokened underlying has a 14-bar history. -/
def kiteShortHist : Kite :=
  { instrumentsNFO := Except.ok [rowNoToken]
    instrumentsNSE := Except.ok [{ tradingsymbol := some "RELIANCE", instrument_token := some 1 }]
    historical_data := fun _ => Except.ok candles14
    quote := fun _ => Except.ok [] }

/-- Witness for C7 at a concrete input. -/
theorem smc_short_history_skipped_witness :
    (candidatesOf defaultConfig kiteShortHist 0).Forall (fun c => c.nm ≠ "RELIANCE") :=
  smc_short_history_skipped defaultConfig kiteShortHist 0 "RELIANCE" (by
    intro t h1 h2
    rw [show lookupA (tokensOf kiteShortHist) "RELIANCE" = some (some 1) from rfl] at h1
    injection h1 with h3
    injection h3 with h4
    subst h4
    decide)

/-- Counterexample for C7: with a single RELIANCE CE row and a 14-bar
history, no candidate at all is built (the spec's claim that both CE and
PE sides remain candidates with a NEUTRAL bias fails), and the scan still
ends with status `"ok"`. -/
theorem smc_short_history_cex :
    candidatesOf defaultConfig kiteShortHist 0 = []
    ∧ (run_smc_scan defaultConfig kiteShortHist 0).status = "ok" := ⟨rfl, rfl⟩

/-! ## C6: candidates missing from the quote dict are scored, at ltp 0 -/

open Classical in
/-- The scored list of a scan (line 420's loop over all candidates). -/
noncomputable def scoredOf (cfg : Config) (kite : Kite) (today : Nat) : List Pick :=
  (candidatesOf cfg kite today).map
    (scoreEntry cfg today (quotesOf cfg kite today) (taTableOf kite))

lemma scoreEntry_unquoted {cfg : Config} {today : Nat}
    {quotes : List (String × Quote)} {ta : List (String × TAData)} {c : Candidate}
    (hnone : lookupA quotes c.sym = none) :
    (scoreEntry cfg today quotes ta c).ltp = 0
    ∧ (scoreEntry cfg today quotes ta c).suggested_lots = 0
    ∧ (scoreEntry cfg today quotes ta c).iv = none := by
  refine ⟨?_, ?_, ?_⟩ <;>
    simp [scoreEntry, hnone]

/-- C6 (amended): every candidate is scored — the scoring loop maps over
the full candidate list, so candidates whose symbol the quote call did not
return are not dropped; such an entry carries `ltp = 0`, zero suggested
lots and no implied volatility. -/
theorem smc_unquoted_candidates_scored (cfg : Config) (kite : Kite) (today : Nat) :
    (scoredOf cfg kite today).length = (candidatesOf cfg kite today).length
    ∧ (candidatesOf cfg kite today).Forall (fun c =>
        lookupA (quotesOf cfg kite today) c.sym = none →
          (scoreEntry cfg today (quotesOf cfg kite today) (taTableOf kite) c).ltp = 0
          ∧ (scoreEntry cfg today (quotesOf cfg kite today) (taTableOf kite) c).suggested_lots
              = 0
          ∧ (scoreEntry cfg today (quotesOf cfg kite today) (taTableOf kite) c).iv = none) := by
  constructor
  · exact List.length_map _ _
  · rw [List.forall_iff_forall_mem]
    intro c hc hnone
    exact scoreEntry_unquoted hnone

/-- One of five RELIANCE CE rows for the C6 scenario. -/
def rowC6 (ts : String) (k : ℚ) : RawNFO :=
  { tradingsymbol := some ts, name := some "RELIANCE", instrument_type := some "CE",
    strike := some k, expiry := some 10, lot_size := some 1 }

def nfoRowsC6 : List RawNFO :=
  [rowC6 "R90" 90, rowC6 "R95" 95, rowC6 "R100" 100, rowC6 "R105" 105, rowC6 "R110" 110]

def nseRowC6 : RawNSE := { tradingsymbol := some "RELIANCE", instrument_token := some 1 }

/-- 15 constant daily bars (price 0: the scan's TA then has no truthy
last price, so the ATM strike comes from the middle of the sorted list). -/
def candles15 : List Candle := List.replicate 15 { high := 0, low := 0, close := 0 }

def quoteC6 : Quote := { last_price := some 5, volume := some 1000, depth := none }

/-- A provider that returns quotes for only three of the five option
symbols the scan asks for. -/
def kiteC6 : Kite :=
  { instrumentsNFO := Except.ok nfoRowsC6
    instrumentsNSE := Except.ok [nseRowC6]
    historical_data := fun _ => Except.ok candles15
    quote := fun _ =>
      Except.ok [("NFO:R90", quoteC6), ("NFO:R95", quoteC6), ("NFO:R100", quoteC6)] }

/-- The TA snapshot of a constant-zero history. -/
def taValC6 : TAData :=
  { ema5 := some 0, ema10 := some 0, rsi := some 100, pp := 0, r1 := 0, s1 := 0, px := 0 }

def candC6 (ts sym : String) (k : ℚ) : Candidate :=
  { sym := sym, meta := rowC6 ts k, side := "CE", base_type := "SHORT",
    rationale := "Bullish weak/exhausted", nm := "RELIANCE" }

def candsC6list : List Candidate :=
  [candC6 "R90" "NFO:R90" 90, candC6 "R95" "NFO:R95" 95, candC6 "R100" "NFO:R100" 100,
   candC6 "R105" "NFO:R105" 105, candC6 "R110" "NFO:R110" 110]

lemma tokensC6 :
    _map_tokens (_slim_rows_nse [nseRowC6] NIFTY50) NIFTY50 = [("RELIANCE", some 1)] := rfl

lemma foldl_ema_const (k x : ℚ) :
    ∀ (l : List ℚ) (e : ℚ), (∀ v ∈ l, v = x) → e = x →
      l.foldl (fun e v => v * k + e * (1 - k)) e = x := by
  intro l
  induction l with
  | nil => intro e _ he; exact he
  | cons v t ih =>
    intro e hmem he
    rw [List.foldl_cons]
    apply ih _ (fun w hw => hmem w (List.mem_cons_of_mem v hw))
    have hv := hmem v (List.mem_cons_self v t)
    rw [hv, he]; ring

lemma ema_const_list (x p : ℚ) (l : List ℚ) (hl : l ≠ []) (hmem : ∀ v ∈ l, v = x) :
    _ema l p = some x := by
  cases l with
  | nil => exact absurd rfl hl
  | cons v0 t =>
    have hv0 : v0 = x := hmem v0 (List.mem_cons_self v0 t)
    show some ((v0 :: t).foldl (fun e v => v * (2 / (p + 1)) + e * (1 - 2 / (p + 1))) v0)
      = some x
    exact congrArg some (foldl_ema_const (2 / (p + 1)) x (v0 :: t) v0 hmem hv0)

lemma sum_replicate_zero (n : Nat) : (List.replicate n (0:ℚ)).sum = 0 := by
  rw [List.sum_replicate, smul_zero]

lemma zipWith_sub_const :
    ∀ n : Nat, List.zipWith (fun a b => a - b) (List.replicate n (0:ℚ))
      (List.replicate (n + 1) 0) = List.replicate n 0 := by
  intro n
  induction n with
  | zero => rfl
  | succ m ih =>
    rw [List.replicate_succ, List.replicate_succ, List.zipWith_cons_cons, ih,
      show (0:ℚ) - 0 = 0 by norm_num]

lemma rsiC6 : _rsi (List.replicate 15 (0:ℚ)) 14 = some 100 := by
  have h15 : ¬ (List.replicate 15 (0:ℚ)).length < 15 := by simp
  have hz : (List.zipWith (fun a b => a - b) (List.replicate 15 (0:ℚ)).tail
      (List.replicate 15 (0:ℚ))).take 14 = List.replicate 14 0 := by
    have h1 : List.zipWith (fun a b => (a:ℚ) - b) (List.replicate 15 (0:ℚ)).tail
        (List.replicate 15 (0:ℚ)) = List.replicate 14 0 := zipWith_sub_const 14
    rw [h1]
    rfl
  have hg : (List.replicate 14 (0:ℚ)).map (fun d => if 0 < d then d else 0)
      = List.replicate 14 0 := by decide
  have hl2 : (List.replicate 14 (0:ℚ)).map (fun d => if d < 0 then -d else 0)
      = List.replicate 14 0 := by decide
  simp only [_rsi, if_neg h15, hz, hg, hl2, sum_replicate_zero]
  simp

lemma taC6_eval : taOf kiteC6 [("RELIANCE", some 1)] = [("RELIANCE", taValC6)] := by
  have hraw : taOf kiteC6 [("RELIANCE", some 1)]
      = [("RELIANCE",
          { ema5 := _ema (List.replicate 10 (0:ℚ)) 5
            ema10 := _ema (List.replicate 10 (0:ℚ)) 10
            rsi := _rsi (List.replicate 15 (0:ℚ)) 14
            pp := ((0:ℚ) + 0 + 0) / 3
            r1 := 2 * (((0:ℚ) + 0 + 0) / 3) - 0
            s1 := 2 * (((0:ℚ) + 0 + 0) / 3) - 0
            px := 0 })] := rfl
  have he5 : _ema (List.replicate 10 (0:ℚ)) 5 = some 0 :=
    ema_const_list 0 5 _ (by simp) (fun v hv => List.eq_of_mem_replicate hv)
  have he10 : _ema (List.replicate 10 (0:ℚ)) 10 = some 0 :=
    ema_const_list 0 10 _ (by simp) (fun v hv => List.eq_of_mem_replicate hv)
  rw [hraw, he5, he10, rsiC6, show ((0:ℚ) + 0 + 0) / 3 = 0 by norm_num,
    show 2 * (0:ℚ) - 0 = 0 by norm_num]
  rfl

lemma candsC6eq : candidatesOf defaultConfig kiteC6 0 = candsC6list := by
  rw [@candidatesOf_eq defaultConfig kiteC6 0 nfoRowsC6 [nseRowC6] 10 rfl rfl rfl,
    tokensC6, taC6_eval]
  rfl

lemma quotesC6_eval : quotesOf defaultConfig kiteC6 0
    = [("NFO:R90", quoteC6), ("NFO:R95", quoteC6), ("NFO:R100", quoteC6)] := by
  simp only [quotesOf]
  rw [candsC6eq]
  rfl


/-- Counterexample for C6: with five candidates and quotes returned for
only three of their symbols, an unquoted symbol still appears among the
picks — it is not restricted away — carrying `ltp = 0` and zero suggested
lots, and the scan ends `"ok"`. -/
theorem smc_unquoted_in_picks_cex :
    ∃ p ∈ (run_smc_scan defaultConfig kiteC6 0).picks,
      p.symbol = "NFO:R105" ∧ p.ltp = 0 ∧ p.suggested_lots = 0
      ∧ (run_smc_scan defaultConfig kiteC6 0).status = "ok" := by
  have h3 : _slim_rows_nfo nfoRowsC6 NIFTY50 ≠ [] := by decide
  have h5 : candidatesOf defaultConfig kiteC6 0 ≠ [] := by
    rw [candsC6eq]; decide
  have hfull := run_smc_scan_full
    (show kiteC6.instrumentsNFO = Except.ok nfoRowsC6 from rfl)
    (show kiteC6.instrumentsNSE = Except.ok [nseRowC6] from rfl)
    h3
    (show _nearest_expiry (_slim_rows_nfo nfoRowsC6 NIFTY50) 0 = some 10 from rfl)
    h5
  have hnone : lookupA (quotesOf defaultConfig kiteC6 0) (candC6 "R105" "NFO:R105" 105).sym
      = none := by
    rw [quotesC6_eval]; rfl
  have hu : (scoreEntry defaultConfig 0 (quotesOf defaultConfig kiteC6 0) (taTableOf kiteC6)
        (candC6 "R105" "NFO:R105" 105)).ltp = 0
      ∧ (scoreEntry defaultConfig 0 (quotesOf defaultConfig kiteC6 0) (taTableOf kiteC6)
        (candC6 "R105" "NFO:R105" 105)).suggested_lots = 0
      ∧ (scoreEntry defaultConfig 0 (quotesOf defaultConfig kiteC6 0) (taTableOf kiteC6)
        (candC6 "R105" "NFO:R105" 105)).iv = none := scoreEntry_unquoted hnone
  refine ⟨scoreEntry defaultConfig 0 (quotesOf defaultConfig kiteC6 0) (taTableOf kiteC6)
      (candC6 "R105" "NFO:R105" 105), ?_, rfl, hu.1, hu.2.1, hfull.1⟩
  rw [hfull.2.1]
  have hlen : (List.insertionSort (fun a b => b.score ≤ a.score)
      ((candidatesOf defaultConfig kiteC6 0).map
        (scoreEntry defaultConfig 0 (quotesOf defaultConfig kiteC6 0)
          (taTableOf kiteC6)))).length ≤ 50 := by
    rw [(List.perm_insertionSort _ _).length_eq, List.length_map, candsC6eq]
    decide
  rw [List.take_of_length_le hlen]
  apply (List.perm_insertionSort _ _).mem_iff.mpr
  apply List.mem_map.mpr
  refine ⟨candC6 "R105" "NFO:R105" 105, ?_, rfl⟩
  rw [candsC6eq]
  exact List.mem_cons_of_mem _ (List.mem_cons_of_mem _ (List.mem_cons_of_mem _
    (List.mem_cons_self _ _)))

end SMC
